import Mathlib

/-!
Verification of the streaming sumcheck prover and the streaming KZG
commitment engine of the `ark-gemini` repository.

Conventions of the embedding:
* A stream (`Iterable`) is embedded as a `List` in *iteration order*.  In this
  repository streams yield the coefficient of highest index first (the SRS is
  `Reverse(..)` of an ascending array, the sumcheck twist runner starts at its
  highest power and descends, and `From<&SpaceProver> for TimeProver` fills the
  materialized vectors in reverse).  So `l = [c_{N-1}, …, c_0]` represents the
  vector `(c_0, …, c_{N-1})`.
* Rust panics (failed `assert!`, `unwrap()` on `None`, arithmetic underflow,
  inversion of zero) are embedded as `Option.none`; a returned value `v` is
  `some v`.
* Machine integers (`usize`) are embedded as `Nat`; every subtraction that can
  underflow in Rust is guarded explicitly before a `Nat` subtraction is used.
-/

set_option maxRecDepth 4000
set_option linter.unusedVariables false
set_option linter.unusedSectionVars false

namespace Gemini

/-! ### Preliminaries -/

/-- `misc::ceil_div` of the repository: `(a + b - 1) / b`. -/
def ceil_div (a b : Nat) : Nat := (a + b - 1) / b

/-- Fuel-driven ceiling base-2 logarithm; `arkLog2Aux fuel n` computes
`⌈log₂ n⌉` whenever `n ≤ fuel` (and `0` for `n ≤ 1`). -/
def arkLog2Aux : Nat → Nat → Nat
  | 0, _ => 0
  | fuel + 1, n => if n ≤ 1 then 0 else arkLog2Aux fuel (ceil_div n 2) + 1

/-- Modelled from the spec: `ark_std::log2`, the external primitive used by
`WitnessStream::required_rounds`.  It returns the ceiling base-2 logarithm
(`log2 (2^k) = k`, `log2 5 = 3`, `log2 0 = 0`). -/
def arkLog2 (n : Nat) : Nat := arkLog2Aux n n

section Sumcheck

variable {F : Type} [Field F] [DecidableEq F]

/-! ### Folded polynomial streams -/

/-- One pass of pairwise folding over a stream in iteration order: the first
element of each pair is the odd-indexed (higher) coefficient, the second the
even-indexed one, and the pair `(odd, even)` folds to `even + r * odd`. -/
def foldPairs (r : F) : List F → List F
  | x :: y :: rest => (y + r * x) :: foldPairs r rest
  | l => l

/-- One folding level.  An odd-length stream starts with its highest
coefficient, which is paired with an implicit zero odd companion and thus
passes through unchanged. -/
def foldStep (r : F) (l : List F) : List F :=
  if l.length % 2 = 0 then foldPairs r l
  else
    match l with
    | [] => []
    | x :: rest => x :: foldPairs r rest

/-- Modelled from the spec: `FoldedPolynomialStream` of
`subprotocols/sumcheck/streams.rs` (the file is not part of the sources given).
Given the base stream `l` (iteration order, highest index first) and the
accumulated challenges `r₁ … r_k`, it is the stream of the `k`-times folded
polynomial `fold_j(x) = fold_{j-1}(2x) + r_j · fold_{j-1}(2x+1)`, again in
iteration order. -/
def foldedStream (challenges : List F) (l : List F) : List F :=
  challenges.foldl (fun acc r => foldStep r acc) l

/-! ### The space prover (`subprotocols/sumcheck/space_prover.rs`) -/

/-- State of `SpaceProver`.  The `WitnessStream` is inlined as the two streams
`f`, `g` (its `twist` field is never read again after construction and is
omitted). -/
structure SpaceProver (F : Type) where
  /-- Randomness given by the verifier, used to fold the right-hand side. -/
  challenges : List F
  /-- Twisted randomness, used to fold the left-hand side. -/
  twisted_challenges : List F
  /-- The left-hand side stream of the witness. -/
  f : List F
  /-- The right-hand side stream of the witness. -/
  g : List F
  /-- Round counter. -/
  round : Nat
  /-- Total number of rounds. -/
  tot_rounds : Nat
  /-- Current twist. -/
  twist : F
deriving DecidableEq, Repr

/-- `WitnessStream::required_rounds`: `log2(min(f.len(), g.len()))`. -/
def required_rounds (f g : List F) : Nat :=
  arkLog2 (min f.length g.length)

/-- `SpaceProver::new`. -/
def SpaceProver.new (f g : List F) (twist : F) : SpaceProver F :=
  { challenges := []
    twisted_challenges := []
    f := f
    g := g
    round := 0
    tot_rounds := required_rounds f g
    twist := twist }

/-- The initial read of `next_message`: with an odd number of remaining
coefficients the first element is the high term and the odd companion is zero,
otherwise two elements `(odd, even)` are read. -/
def readPair (coefficients : Nat) (l : List F) : Option (F × F × List F) :=
  if coefficients % 2 = 1 then
    match l with
    | x :: rest => some ((0 : F), x, rest)
    | [] => none
  else
    match l with
    | x :: y :: rest => some (x, y, rest)
    | _ => none

/-- The main loop of `SpaceProver::next_message`: `pairs` iterations, each
consuming `(f_odd, f_even)` and `(g_odd, g_even)` from the two streams and
accumulating into the partial sums `a` and `b` with the descending twist
runner. -/
def loopPairs (t tr t2inv : F) (a b : F) :
    Nat → List F → List F → Option (F × F)
  | 0, _, _ => some (a, b)
  | n + 1, fo :: fe :: fr, go :: ge :: gr =>
      loopPairs t (tr * t2inv) t2inv
        (a + fe * ge * tr) (b + (fe * go + fo * ge * t) * tr) n fr gr
  | _ + 1, _, _ => none

/-- The stream-alignment step of `next_message`: if one folded stream is
longer, skip `delta = longer - shorter + shorter % 2` of its leading elements;
returns the two aligned streams with their remaining coefficient counts. -/
def alignStreams (folded_f folded_g : List F) :
    List F × Nat × List F × Nat :=
  if folded_g.length < folded_f.length then
    let delta := folded_f.length - folded_g.length + folded_g.length % 2
    (folded_f.drop delta, folded_f.length - delta, folded_g, folded_g.length)
  else if folded_f.length < folded_g.length then
    let delta := folded_g.length - folded_f.length + folded_f.length % 2
    (folded_f, folded_f.length, folded_g.drop delta, folded_g.length - delta)
  else (folded_f, folded_f.length, folded_g, folded_g.length)

/-- The round-message computation of `SpaceProver::next_message` (everything
between the assertions and the final return): fold the streams, align them,
read the first `(odd, even)` pairs, and run the accumulation loop. -/
def next_message_core (st : SpaceProver F) : Option (F × F) :=
  match alignStreams (foldedStream st.twisted_challenges st.f)
      (foldedStream st.challenges st.g) with
  | (ff, f_coefficients, fg, g_coefficients) =>
    match readPair f_coefficients ff, readPair g_coefficients fg with
    | some (f_odd, f_even, fr), some (g_odd, g_even, gr) =>
      -- `f_coefficients - 2` underflows (panics) for fewer than 2
      if 2 ≤ f_coefficients ∧ 2 ≤ g_coefficients then
        let f_pairs := (f_coefficients - 2 + f_coefficients % 2) / 2
        let g_pairs := (g_coefficients - 2 + g_coefficients % 2) / 2
        if f_pairs = g_pairs then
          if st.twist = 0 then none   -- `twist².inverse().unwrap()`
          else
            let twist2inv := (st.twist ^ 2)⁻¹
            let twist_runner := st.twist ^ (f_pairs * 2)
            let a := f_even * g_even * twist_runner
            let b := (f_even * g_odd + f_odd * g_even * st.twist) *
              twist_runner
            loopPairs st.twist (twist_runner * twist2inv) twist2inv
              a b f_pairs fr gr
        else none
      else none
    | _, _ => none

/-- `SpaceProver::next_message` (`Prover` impl, space_prover.rs lines
117-240).  The outer `Option` is the panic layer (failed assertions and
`unwrap`s); the inner `Option` is the function's own return value. -/
def SpaceProver.next_message (st : SpaceProver F) :
    Option (Option (F × F) × SpaceProver F) :=
  if st.round ≤ st.tot_rounds then
    if st.challenges.length = st.round then
      if st.round = st.tot_rounds then some (none, st)
      else
        match next_message_core st with
        | some ab => some (some ab, { st with round := st.round + 1 })
        | none => none
    else none
  else none

/-- `SpaceProver::fold`: store the challenge, store the twisted challenge,
square the twist in place. -/
def SpaceProver.fold (st : SpaceProver F) (r : F) : SpaceProver F :=
  { st with
    challenges := st.challenges ++ [r]
    twisted_challenges := st.twisted_challenges ++ [r * st.twist]
    twist := st.twist ^ 2 }

/-- `SpaceProver::rounds`. -/
def SpaceProver.rounds (st : SpaceProver F) : Nat := st.tot_rounds

/-- `SpaceProver::final_foldings`: first element of each folded stream,
returned only when `round == tot_rounds`. -/
def SpaceProver.final_foldings (st : SpaceProver F) : Option (F × F) :=
  match (foldedStream st.twisted_challenges st.f).head?,
        (foldedStream st.challenges st.g).head? with
  | some lhs, some rhs =>
      if st.round = st.tot_rounds then some (lhs, rhs) else none
  | _, _ => none

/-! ### The time prover

Only the `From<&SpaceProver> for TimeProver` conversion is among the given
sources; the `TimeProver` operations themselves live in
`subprotocols/sumcheck/time_prover.rs`, which is not given, and are modelled
from the spec. -/

/-- `TimeProver` state: the two witness vectors fully materialized, in
ascending coefficient order (the `From` conversion fills them in reverse
iteration order). -/
structure TimeProver (F : Type) where
  f : List F
  g : List F
  round : Nat
  twist : F
  tot_rounds : Nat
deriving DecidableEq, Repr

/-- `From<&SpaceProver<F, S1, S2>> for TimeProver<F>` (space_prover.rs lines
269-307): materialize the two folded streams in reverse and copy round, total
rounds and twist. -/
def TimeProver.ofSpace (sp : SpaceProver F) : TimeProver F :=
  { f := (foldedStream sp.twisted_challenges sp.f).reverse
    g := (foldedStream sp.challenges sp.g).reverse
    round := sp.round
    twist := sp.twist
    tot_rounds := sp.tot_rounds }

/-- The degree-0 coefficient `a` of a round polynomial, computed over the
materialized ascending vectors chunk by chunk:
`a = Σ_j f_{2j} · g_{2j} · twist^{2j}` (a lone trailing element has an
implicit zero odd companion). -/
def aCoeff : List F → List F → F → F
  | a0 :: _ :: as_, b0 :: _ :: bs, t => a0 * b0 + t ^ 2 * aCoeff as_ bs t
  | [a0], [b0], _ => a0 * b0
  | _, _, _ => 0

/-- The degree-1 coefficient `b` of a round polynomial over the materialized
ascending vectors: `b = Σ_j (f_{2j}·g_{2j+1} + f_{2j+1}·g_{2j}·twist)·twist^{2j}`. -/
def bCoeff (t : F) : List F → List F → F
  | a0 :: a1 :: as_, b0 :: b1 :: bs =>
      (a0 * b1 + a1 * b0 * t) + t ^ 2 * bCoeff t as_ bs
  | _, _ => 0

/-- Modelled from the spec: the even/odd fold of a materialized ascending
vector with challenge `ρ`: `out_j = v_{2j} + ρ · v_{2j+1}` (a lone trailing
element passes through). -/
def timeFoldVec (ρ : F) : List F → List F
  | a0 :: a1 :: rest => (a0 + ρ * a1) :: timeFoldVec ρ rest
  | l => l

/-- Modelled from the spec: `TimeProver::next_message` — in an active round it
returns the twist-weighted partial bilinear sums `(a, b)` over the remaining
positions and advances the round; once done it returns nothing. -/
def TimeProver.next_message (tp : TimeProver F) :
    Option (Option (F × F) × TimeProver F) :=
  if tp.round < tp.tot_rounds then
    some (some (aCoeff tp.f tp.g tp.twist, bCoeff tp.twist tp.f tp.g),
      { tp with round := tp.round + 1 })
  else some (none, tp)

/-- Modelled from the spec: `TimeProver::fold` — halve both vectors in place,
the left one with the twisted challenge `r·twist`, the right one with `r`,
then square the twist. -/
def TimeProver.fold (tp : TimeProver F) (r : F) : TimeProver F :=
  { tp with
    f := timeFoldVec (r * tp.twist) tp.f
    g := timeFoldVec r tp.g
    twist := tp.twist ^ 2 }

/-- Modelled from the spec: `TimeProver::final_foldings` — the two fully
folded scalars, defined only at `round == tot_rounds`. -/
def TimeProver.final_foldings (tp : TimeProver F) : Option (F × F) :=
  match tp.f.head?, tp.g.head? with
  | some lhs, some rhs =>
      if tp.round = tp.tot_rounds then some (lhs, rhs) else none
  | _, _ => none

/-! ### Protocol drivers: alternate `next_message` / `fold` -/

/-- Drive a `SpaceProver` through one `next_message`/`fold` alternation per
challenge, collecting the emitted round messages. -/
def runSpace : SpaceProver F → List F → Option (List (F × F) × SpaceProver F)
  | st, [] => some ([], st)
  | st, c :: cs =>
    match st.next_message with
    | some (some msg, st') =>
      match runSpace (st'.fold c) cs with
      | some (msgs, fin) => some (msg :: msgs, fin)
      | none => none
    | _ => none

/-- Drive a `TimeProver` through one `next_message`/`fold` alternation per
challenge, collecting the emitted round messages. -/
def runTime : TimeProver F → List F → Option (List (F × F) × TimeProver F)
  | tp, [] => some ([], tp)
  | tp, c :: cs =>
    match tp.next_message with
    | some (some msg, tp') =>
      match runTime (tp'.fold c) cs with
      | some (msgs, fin) => some (msg :: msgs, fin)
      | none => none
    | _ => none

/-! ### Reference sums for the round messages -/

/-- The twisted scalar product `Σ_i f_i · g_i · t^i` over ascending vectors. -/
def twistedProduct : List F → List F → F → F
  | a :: as_, b :: bs, t => a * b + t * twistedProduct as_ bs t
  | _, _, _ => 0

/-- The degree-2 coefficient `c` of a round polynomial over ascending vectors:
`c = Σ_j f_{2j+1} · g_{2j+1} · twist^{2j+1}` (this coefficient is not sent;
the verifier reconstructs it from the claimed sum). -/
def cCoeff (t : F) : List F → List F → F
  | _ :: a1 :: as_, _ :: b1 :: bs => a1 * b1 * t + t ^ 2 * cCoeff t as_ bs
  | _, _ => 0

/-- Descending-order reference value of the `a`-sums computed by the space
prover's loop: consuming the streams pairwise `(odd, even)` with a runner that
starts at `tr` and is multiplied by `q` after each pair. -/
def dSum (tr q : F) : List F → List F → F
  | _fo :: fe :: fr, _go :: ge :: gr => fe * ge * tr + dSum (tr * q) q fr gr
  | _, _ => 0

/-- Descending-order reference value of the `b`-sums computed by the space
prover's loop. -/
def dCross (t tr q : F) : List F → List F → F
  | fo :: fe :: fr, go :: ge :: gr =>
      (fe * go + fo * ge * t) * tr + dCross t (tr * q) q fr gr
  | _, _ => 0

end Sumcheck

/-! ### The streaming KZG commitment engine (`kzg/space.rs`) -/

section Kzg

variable {F : Type} [Field F] [DecidableEq F]
variable {G : Type} [AddCommGroup G] [Module F G]

/-- A multi-scalar multiplication `Σ_i scalar_i • base_i` over two aligned
lists (the external `VariableBaseMSM`/`G::msm` primitive). -/
def msmList (bases : List G) (scalars : List F) : G :=
  (List.zipWith (fun b s => s • b) bases scalars).sum

/-- The chunk loop of `msm_chunks`: `k` iterations, each taking a window of
`step` elements from both streams and adding the window's MSM to the result. -/
def msmChunksLoop (step : Nat) : Nat → List G → List F → G
  | 0, _, _ => 0
  | k + 1, bs, ss =>
      msmList (bs.take step) (ss.take step) + msmChunksLoop step k (bs.drop step) (ss.drop step)

/-- `msm_chunks` (kzg/space.rs lines 23-56).  The source hard-codes
`step = 1 <<< 20`; the chunk size is a parameter here so that invariance in it
can be stated.  Returns `none` on the failed length assertion. -/
def msm_chunks (step : Nat) (bases_stream : List G) (scalars_stream : List F) :
    Option G :=
  if scalars_stream.length ≤ bases_stream.length then
    let bases := bases_stream.drop (bases_stream.length - scalars_stream.length)
    some (msmChunksLoop step ((scalars_stream.length + step - 1) / step)
      bases scalars_stream)
  else none

/-- The committer key stream: the `powers_of_g` stream of a
`CommitterKeyStream` (iteration order: highest power first).  The two
`powers_of_g2` elements are used only by the verifier and are omitted. -/
structure CommitterKeyStream (G : Type) where
  powers_of_g : List G
deriving DecidableEq, Repr

/-- `CommitterKeyStream::commit`: assert the SRS is long enough, then run the
chunked MSM with the hard-coded chunk size `1 <<< 20`. -/
def CommitterKeyStream.commit (ck : CommitterKeyStream G) (polynomial : List F) :
    Option G :=
  if polynomial.length ≤ ck.powers_of_g.length then
    msm_chunks (2 ^ 20) ck.powers_of_g polynomial
  else none

/-- The external `ChunkedPippenger` MSM accumulator of `ark_ec` (an assumed
primitive): buffers `(base, scalar)` pairs and flushes a batch MSM into the
running result whenever the buffer reaches its maximum size. -/
structure ChunkedPippenger (G F : Type) where
  max_size : Nat
  buffer : List (G × F)
  result : G
deriving DecidableEq, Repr

/-- Sum of a pippenger buffer. -/
def msmPairs (l : List (G × F)) : G := (l.map fun p => p.2 • p.1).sum

/-- `ChunkedPippenger::with_size` / `::new`. -/
def ChunkedPippenger.new (sz : Nat) : ChunkedPippenger G F := ⟨sz, [], 0⟩

/-- `ChunkedPippenger::add`. -/
def ChunkedPippenger.add (p : ChunkedPippenger G F) (base : G) (scalar : F) :
    ChunkedPippenger G F :=
  let buf := p.buffer ++ [(base, scalar)]
  if p.max_size ≤ buf.length then ⟨p.max_size, [], p.result + msmPairs buf⟩
  else ⟨p.max_size, buf, p.result⟩

/-- `ChunkedPippenger::finalize`. -/
def ChunkedPippenger.finalize (p : ChunkedPippenger G F) : G :=
  p.result + msmPairs p.buffer

/-- Big-endian polynomial evaluation (`misc::evaluate_be`, modelled: the file
is not among the sources): the list is read leading coefficient first. -/
def evaluate_be (l : List F) (x : F) : F :=
  l.foldl (fun acc c => acc * x + c) 0

/-- Multiplication of a big-endian coefficient list by `(x - a)`. -/
def mulLinBE (a : F) (l : List F) : List F :=
  List.zipWith (fun u v => u - a * v) (l ++ [0]) (0 :: l)

/-- Modelled from the spec: `kzg::vanishing_polynomial` (the file is not among
the sources): the monic polynomial `Z(x) = Π (x - point_i)`, held here in
big-endian coefficient order, so `zeros.coeffs[zeros.degree() - i - 1]` of the
source is entry `i` of `(vanishingBE points).tail`. -/
def vanishingBE (points : List F) : List F :=
  points.foldl (fun acc p => mulLinBE p acc) [1]

/-- The streaming division loop of `open_multi_points`: for each further
coefficient, pop the sliding window's front as the next quotient coefficient,
push the new coefficient, subtract `quotient_coefficient × Z`-tail from the
window, and feed the quotient coefficient with the next aligned SRS element
into the MSM accumulator. -/
def divLoop (zTail : List F) :
    List F → List F → List G → ChunkedPippenger G F →
    Option (List F × ChunkedPippenger G F)
  | [], state, _, pip => some (state, pip)
  | c :: cs, state, bases, pip =>
    match state, bases with
    | q :: stTail, base :: bTail =>
        divLoop zTail cs
          (List.zipWith (fun v zc => v - zc * q) (stTail ++ [c]) zTail)
          bTail (pip.add base q)
    | _, _ => none

/-- `CommitterKeyStream::open_multi_points` (kzg/space.rs lines 129-167):
divide the streamed polynomial by the vanishing polynomial of `points`,
keeping an `m`-sized sliding window; returns the final window (the remainder,
big-endian) and the combined evaluation proof. -/
def CommitterKeyStream.open_multi_points (ck : CommitterKeyStream G)
    (polynomial : List F) (points : List F) (max_msm_buffer : Nat) :
    Option (List F × G) :=
  let zeros := vanishingBE points
  if polynomial.length ≤ ck.powers_of_g.length then
    if points.length ≤ polynomial.length then
      let bases := ck.powers_of_g.drop
        (ck.powers_of_g.length - polynomial.length + points.length)
      let state := polynomial.take points.length
      let rest := polynomial.drop points.length
      match divLoop zeros.tail rest state bases
          (ChunkedPippenger.new max_msm_buffer) with
      | some (state, pip) => some (state, pip.finalize)
      | none => none
    else none
  else none

/-! ### Folding-tree commitment (`commit_folding`) -/

/-- Modelled from the spec: the traversal of a `FoldedPolynomialTree` of depth
`n = challenges.length` emits, for each level `i ∈ 1..n`, the level-`i` folded
stream tagged with its level.  (The source interleaves the levels in one pass
over the base stream; the interleaving order across levels is immaterial to
`commit_folding`, which routes every pair to its level's own accumulator, so
the traversal is modelled level by level.) -/
def treeTraversal (base : List F) (challenges : List F) : List (Nat × F) :=
  (List.range challenges.length).flatMap
    (fun j => (foldedStream (challenges.take (j + 1)) base).map
      (fun c => (j + 1, c)))

/-- One step of the `commit_folding` routing loop: pair `(i, c)` takes the
next base of level `i`'s aligned SRS suffix and adds `(base, c)` to level
`i`'s accumulator.  Level index `0` or out of range is an index panic. -/
def routePair (st : List (List G × ChunkedPippenger G F)) :
    Nat × F → Option (List (List G × ChunkedPippenger G F))
  | (i, c) =>
    if 1 ≤ i then
      match st[i - 1]? with
      | some (bases, pip) =>
        match bases with
        | base :: bTail => some (st.set (i - 1) (bTail, pip.add base c))
        | [] => none
      | none => none
    else none

/-- The aligned SRS suffix for level `i`: skip
`srs.len - ceil_div(base.len, 2^i)` leading elements (panic when the SRS is
too short). -/
def levelBases (srs : List G) (baseLen i : Nat) : Option (List G) :=
  if ceil_div baseLen (2 ^ i) ≤ srs.length then
    some (srs.drop (srs.length - ceil_div baseLen (2 ^ i)))
  else none

/-- `CommitterKeyStream::commit_folding` (kzg/space.rs lines 193-224): one
`ChunkedPippenger` of size `max_msm_buffer / n` per level, fed by the tree
traversal, each level against its own aligned SRS suffix. -/
def CommitterKeyStream.commit_folding (ck : CommitterKeyStream G)
    (base : List F) (challenges : List F) (max_msm_buffer : Nat) :
    Option (List G) :=
  if 0 < challenges.length then
    match (List.range challenges.length).mapM
        (fun j => (levelBases ck.powers_of_g base.length (j + 1)).map
          (fun bs => (bs, (ChunkedPippenger.new
            (max_msm_buffer / challenges.length) :
            ChunkedPippenger G F)))) with
    | some init =>
      match (treeTraversal base challenges).foldlM routePair init with
      | some fin => some (fin.map fun p => p.2.finalize)
      | none => none
    | none => none
  else none

end Kzg

/-! ## Lemmas -/

/-! ### Arithmetic facts -/

theorem ceil_div_two_pow (k : Nat) (hk : 1 ≤ k) :
    ceil_div (2 ^ k) 2 = 2 ^ (k - 1) := by
  have h : 2 ^ k = 2 * 2 ^ (k - 1) := by
    calc 2 ^ k = 2 ^ (1 + (k - 1)) := by congr 1; omega
    _ = 2 * 2 ^ (k - 1) := by rw [pow_add, pow_one]
  unfold ceil_div
  omega

theorem arkLog2Aux_pow : ∀ fuel k, 2 ^ k ≤ fuel → arkLog2Aux fuel (2 ^ k) = k := by
  intro fuel
  induction fuel with
  | zero =>
    intro k hk
    have : 0 < 2 ^ k := by positivity
    omega
  | succ n ih =>
    intro k hk
    match k with
    | 0 => simp [arkLog2Aux]
    | k + 1 =>
      have h2 : ¬ (2 ^ (k + 1) ≤ 1) := by
        have : 2 ^ 1 ≤ 2 ^ (k + 1) := Nat.pow_le_pow_right (by norm_num) (by omega)
        omega
      rw [arkLog2Aux, if_neg h2, ceil_div_two_pow (k + 1) (by omega)]
      simp only [Nat.add_sub_cancel]
      rw [ih k ?_]
      have h3 : 2 ^ (k + 1) = 2 * 2 ^ k := by rw [pow_succ, mul_comm]
      omega

theorem arkLog2_pow (k : Nat) : arkLog2 (2 ^ k) = k :=
  arkLog2Aux_pow (2 ^ k) k le_rfl

/-- Galois characterization of `ceil_div`. -/
theorem ceil_div_le_iff (a m x : Nat) (hm : 0 < m) :
    ceil_div a m ≤ x ↔ a ≤ m * x := by
  unfold ceil_div
  rw [Nat.div_le_iff_le_mul_add_pred hm]
  omega

theorem ceil_div_ceil_div (a m n : Nat) (hm : 0 < m) (hn : 0 < n) :
    ceil_div (ceil_div a m) n = ceil_div a (m * n) := by
  apply Nat.le_antisymm
  · rw [ceil_div_le_iff _ _ _ hn, ceil_div_le_iff _ _ _ hm]
    have h1 : a ≤ m * n * ceil_div a (m * n) :=
      (ceil_div_le_iff a (m * n) _ (Nat.mul_pos hm hn)).mp le_rfl
    calc a ≤ m * n * ceil_div a (m * n) := h1
      _ = m * (n * ceil_div a (m * n)) := by ring
  · rw [ceil_div_le_iff _ _ _ (Nat.mul_pos hm hn)]
    have h1 : ceil_div a m ≤ n * ceil_div (ceil_div a m) n :=
      (ceil_div_le_iff (ceil_div a m) n _ hn).mp le_rfl
    have h2 : a ≤ m * (n * ceil_div (ceil_div a m) n) :=
      (ceil_div_le_iff a m _ hm).mp h1
    calc a ≤ m * (n * ceil_div (ceil_div a m) n) := h2
      _ = m * n * ceil_div (ceil_div a m) n := by ring

theorem ceil_div_le_self (a k : Nat) (hk : 1 ≤ k) : ceil_div a (2 ^ k) ≤ a := by
  rcases Nat.eq_zero_or_pos a with h | h
  · subst h
    unfold ceil_div
    have h2 : 0 < 2 ^ k := by positivity
    rw [Nat.zero_add, Nat.div_eq_of_lt (by omega)]
  · rw [ceil_div_le_iff _ _ _ (by positivity)]
    calc a = 1 * a := (one_mul a).symm
      _ ≤ 2 ^ k * a := by
        apply Nat.mul_le_mul_right
        exact Nat.one_le_two_pow

theorem ceil_div_pow_exact (n k : Nat) (h : k ≤ n) :
    ceil_div (2 ^ n) (2 ^ k) = 2 ^ (n - k) := by
  have h1 : 2 ^ n = 2 ^ k * 2 ^ (n - k) := by
    rw [← pow_add]; congr 1; omega
  have h2 : 0 < 2 ^ k := by positivity
  unfold ceil_div
  have h3 : 2 ^ k * 2 ^ (n - k) + 2 ^ k - 1 = (2 ^ k - 1) + 2 ^ (n - k) * 2 ^ k := by
    have hc : 2 ^ k * 2 ^ (n - k) = 2 ^ (n - k) * 2 ^ k := mul_comm _ _
    omega
  rw [h1, h3, Nat.add_mul_div_right _ _ h2, Nat.div_eq_of_lt (by omega),
    Nat.zero_add]

/-! ### MSM lemmas (chunking invariance) -/

section KzgLemmas

variable {F : Type} [Field F] [DecidableEq F]
variable {G : Type} [AddCommGroup G] [Module F G]

theorem zipWith_take_append_drop (f : G → F → G) (n : Nat) :
    ∀ (l₁ : List G) (l₂ : List F),
      List.zipWith f l₁ l₂ =
        List.zipWith f (l₁.take n) (l₂.take n) ++
          List.zipWith f (l₁.drop n) (l₂.drop n) := by
  induction n with
  | zero => simp
  | succ n ih =>
    intro l₁ l₂
    match l₁, l₂ with
    | [], _ => simp
    | _ :: _, [] => simp
    | a :: l₁, b :: l₂ => simp [List.zipWith, ih l₁ l₂]

theorem msmList_take_drop (n : Nat) (bs : List G) (ss : List F) :
    msmList bs ss =
      msmList (bs.take n) (ss.take n) + msmList (bs.drop n) (ss.drop n) := by
  unfold msmList
  rw [zipWith_take_append_drop (fun b s => s • b) n bs ss, List.sum_append]

theorem msmChunksLoop_eq_msmList (step : Nat) :
    ∀ (k : Nat) (bs : List G) (ss : List F), ss.length ≤ step * k →
      msmChunksLoop step k bs ss = msmList bs ss := by
  intro k
  induction k with
  | zero =>
    intro bs ss h
    have : ss = [] := List.length_eq_zero.mp (by omega)
    subst this
    simp [msmChunksLoop, msmList]
  | succ k ih =>
    intro bs ss h
    rw [msmChunksLoop, ih (bs.drop step) (ss.drop step) ?_,
      ← msmList_take_drop]
    have hm : step * (k + 1) = step * k + step := by ring
    simp only [List.length_drop]
    omega

theorem chunk_count_covers (step ls : Nat) (h : 0 < step) :
    ls ≤ step * ((ls + step - 1) / step) := by
  rcases Nat.eq_zero_or_pos ls with h0 | h0
  · simp [h0]
  · have h1 : ls + step - 1 = ls - 1 + step := by omega
    have h2 := Nat.lt_mul_div_succ (ls - 1) h
    rw [h1, Nat.add_div_right _ h]
    calc ls = ls - 1 + 1 := by omega
      _ ≤ step * ((ls - 1) / step + 1) := h2
      _ = step * ((ls - 1) / step + 1) := rfl

/-- The main `msm_chunks` characterization: for any positive chunk size the
result is the plain MSM of the aligned tails, hence independent of `step`. -/
theorem msm_chunks_spec (step : Nat) (hstep : 0 < step)
    (bases_stream : List G) (scalars_stream : List F)
    (h : scalars_stream.length ≤ bases_stream.length) :
    msm_chunks step bases_stream scalars_stream =
      some (msmList
        (bases_stream.drop (bases_stream.length - scalars_stream.length))
        scalars_stream) := by
  unfold msm_chunks
  rw [if_pos h]
  show some _ = _
  rw [msmChunksLoop_eq_msmList step _ _ scalars_stream
    (chunk_count_covers step scalars_stream.length hstep)]

end KzgLemmas

/-! ### Pippenger accumulator and folding-tree routing -/

section PippengerLemmas

variable {F : Type} [Field F] [DecidableEq F]
variable {G : Type} [AddCommGroup G] [Module F G]

theorem finalize_new (sz : Nat) :
    (ChunkedPippenger.new sz : ChunkedPippenger G F).finalize = 0 := by
  simp [ChunkedPippenger.new, ChunkedPippenger.finalize, msmPairs]

theorem finalize_add (p : ChunkedPippenger G F) (b : G) (s : F) :
    (p.add b s).finalize = p.finalize + s • b := by
  unfold ChunkedPippenger.add ChunkedPippenger.finalize
  by_cases h : p.max_size ≤ (p.buffer ++ [(b, s)]).length
  · rw [if_pos h]
    simp [msmPairs]
    rw [← add_assoc]
  · rw [if_neg h]
    simp [msmPairs]
    rw [← add_assoc]

theorem msmList_nil (bs : List G) : msmList bs ([] : List F) = 0 := by
  simp [msmList]

theorem msmList_cons (b : G) (bs : List G) (c : F) (cs : List F) :
    msmList (b :: bs) (c :: cs) = c • b + msmList bs cs := by
  simp [msmList]

/-- Feeding one level's coefficient list through the routing loop: only that
level's entry changes, its bases advance by the number of coefficients, and
its accumulator gains exactly the level's MSM. -/
theorem routeSegment (i : Nat) (hi : 1 ≤ i) :
    ∀ (cs : List F) (st : List (List G × ChunkedPippenger G F))
      (bs : List G) (pip : ChunkedPippenger G F),
      st[i - 1]? = some (bs, pip) → cs.length ≤ bs.length →
      ∃ st', List.foldlM routePair st (cs.map (fun c => (i, c))) = some st' ∧
        st'.length = st.length ∧
        (∀ j, j ≠ i - 1 → st'[j]? = st[j]?) ∧
        ∃ pip', st'[i - 1]? = some (bs.drop cs.length, pip') ∧
          pip'.finalize = pip.finalize + msmList bs cs := by
  intro cs
  induction cs with
  | nil =>
    intro st bs pip hst hlen
    refine ⟨st, rfl, rfl, fun j _ => rfl, pip, ?_, by rw [msmList_nil, add_zero]⟩
    simpa using hst
  | cons c cs ih =>
    intro st bs pip hst hlen
    match bs, hlen with
    | b :: bTail, hlen =>
      have hidx : i - 1 < st.length := by
        by_contra hcon
        rw [List.getElem?_eq_none (by omega)] at hst
        simp at hst
      have hroute : routePair st (i, c) =
          some (st.set (i - 1) (bTail, pip.add b c)) := by
        simp only [routePair]
        rw [if_pos hi, hst]
      have hst₁ : (st.set (i - 1) (bTail, pip.add b c))[i - 1]? =
          some (bTail, pip.add b c) := by
        rw [List.getElem?_set_self]
        exact hidx
      have hlen₁ : cs.length ≤ bTail.length := by
        simp only [List.length_cons] at hlen; omega
      obtain ⟨st', hrun, hlen', hother, pip', hpip', hfin⟩ :=
        ih (st.set (i - 1) (bTail, pip.add b c)) bTail (pip.add b c) hst₁ hlen₁
      refine ⟨st', ?_, by rw [hlen']; simp, ?_, pip', ?_, ?_⟩
      · show List.foldlM routePair st ((i, c) :: cs.map (fun c => (i, c))) =
          some st'
        rw [List.foldlM_cons, hroute]
        exact hrun
      · intro j hj
        rw [hother j hj, List.getElem?_set_ne]
        omega
      · exact hpip'
      · rw [hfin, finalize_add, msmList_cons]
        rw [add_assoc]
    | [], hlen => simp only [List.length_cons, List.length_nil] at hlen; omega

/-- Routing an interleaving of several distinct levels: each level's entry
ends with its own MSM accumulated, every other entry untouched. -/
theorem routeTraversal :
    ∀ (levels : List Nat) (st : List (List G × ChunkedPippenger G F))
      (coeffs : Nat → List F),
      (∀ i ∈ levels, 1 ≤ i) → levels.Nodup →
      (∀ i ∈ levels, ∃ bs pip, st[i - 1]? = some (bs, pip) ∧
        (coeffs i).length ≤ bs.length) →
      ∃ st', List.foldlM routePair st
          (levels.flatMap (fun i => (coeffs i).map (fun c => (i, c)))) =
          some st' ∧
        st'.length = st.length ∧
        (∀ j, (j + 1) ∉ levels → st'[j]? = st[j]?) ∧
        (∀ i ∈ levels, ∀ bs pip, st[i - 1]? = some (bs, pip) →
          ∃ pip', st'[i - 1]? = some (bs.drop (coeffs i).length, pip') ∧
            pip'.finalize = pip.finalize + msmList bs (coeffs i)) := by
  intro levels
  induction levels with
  | nil =>
    intro st coeffs _ _ _
    exact ⟨st, rfl, rfl, fun j _ => rfl, fun i hi => absurd hi (by simp)⟩
  | cons i ls ih =>
    intro st coeffs hone hnodup hdata
    obtain ⟨bs, pip, hst, hblen⟩ := hdata i (by simp)
    have hi : 1 ≤ i := hone i (by simp)
    obtain ⟨st₁, hrun₁, hlen₁, hother₁, pip', hpip', hfin'⟩ :=
      routeSegment i hi (coeffs i) st bs pip hst hblen
    have hnotin : i ∉ ls := by
      rw [List.nodup_cons] at hnodup
      exact hnodup.1
    have hdata₁ : ∀ j ∈ ls, ∃ bs pip, st₁[j - 1]? = some (bs, pip) ∧
        (coeffs j).length ≤ bs.length := by
      intro j hj
      obtain ⟨bsj, pipj, hstj, hjlen⟩ := hdata j (by simp [hj])
      have hne : j - 1 ≠ i - 1 := by
        have hj1 : 1 ≤ j := hone j (by simp [hj])
        have : j ≠ i := fun hcon => hnotin (hcon ▸ hj)
        omega
      exact ⟨bsj, pipj, by rw [hother₁ (j - 1) hne]; exact hstj, hjlen⟩
    obtain ⟨st', hrun', hlen', hother', hfin''⟩ :=
      ih st₁ coeffs (fun j hj => hone j (by simp [hj]))
        (List.nodup_cons.mp hnodup).2 hdata₁
    refine ⟨st', ?_, by rw [hlen', hlen₁], ?_, ?_⟩
    · rw [List.flatMap_cons, List.foldlM_append, hrun₁]
      exact hrun'
    · intro j hj
      have hj1 : (j + 1) ∉ ls := fun hcon => hj (by simp [hcon])
      have hj2 : j ≠ i - 1 := by
        intro hcon
        apply hj
        have : i = j + 1 := by omega
        simp [this]
      rw [hother' j hj1, hother₁ j hj2]
    · intro k hk bsk pipk hstk
      rcases List.mem_cons.mp hk with hk1 | hk2
      · subst hk1
        rw [hst] at hstk
        simp only [Option.some.injEq, Prod.mk.injEq] at hstk
        obtain ⟨hbse, hpipe⟩ := hstk
        subst hbse
        subst hpipe
        refine ⟨pip', ?_, hfin'⟩
        rw [hother' (k - 1) ?_]
        · exact hpip'
        · intro hcon
          have : k - 1 + 1 = k := by omega
          rw [this] at hcon
          exact hnotin hcon
      · have hne : k - 1 ≠ i - 1 := by
          have hk1 : 1 ≤ k := hone k (by simp [hk2])
          have : k ≠ i := fun hcon => hnotin (hcon ▸ hk2)
          omega
        have hstk₁ : st₁[k - 1]? = some (bsk, pipk) := by
          rw [hother₁ (k - 1) hne]
          exact hstk
        exact hfin'' k hk2 bsk pipk hstk₁

theorem mapM_option_of_forall {α β : Type} (f : α → Option β) (g : α → β) :
    ∀ l : List α, (∀ a ∈ l, f a = some (g a)) → l.mapM f = some (l.map g) := by
  intro l
  induction l with
  | nil => intro _; rfl
  | cons a l ih =>
    intro h
    rw [List.mapM_cons, h a (by simp), ih (fun b hb => h b (by simp [hb]))]
    rfl

end PippengerLemmas

/-! ### Big-endian evaluation and polynomial division -/

section DivisionLemmas

variable {F : Type} [Field F] [DecidableEq F]
variable {G : Type} [AddCommGroup G] [Module F G]

theorem evaluate_be_foldl (x : F) :
    ∀ (l : List F) (init : F),
      List.foldl (fun acc c => acc * x + c) init l =
        init * x ^ l.length + evaluate_be l x := by
  intro l
  induction l with
  | nil => intro init; simp [evaluate_be]
  | cons c l ih =>
    intro init
    show List.foldl (fun acc c => acc * x + c) (init * x + c) l = _
    rw [ih (init * x + c)]
    have h2 : evaluate_be (c :: l) x = c * x ^ l.length + evaluate_be l x := by
      show List.foldl (fun acc c => acc * x + c) ((0 : F) * x + c) l = _
      rw [ih ((0 : F) * x + c)]
      ring
    rw [h2, List.length_cons, pow_succ]
    ring

theorem evaluate_be_cons (c : F) (l : List F) (x : F) :
    evaluate_be (c :: l) x = c * x ^ l.length + evaluate_be l x := by
  show List.foldl (fun acc c => acc * x + c) ((0 : F) * x + c) l = _
  rw [evaluate_be_foldl x l ((0 : F) * x + c)]
  ring

theorem evaluate_be_append (l₁ l₂ : List F) (x : F) :
    evaluate_be (l₁ ++ l₂) x =
      evaluate_be l₁ x * x ^ l₂.length + evaluate_be l₂ x := by
  unfold evaluate_be
  rw [List.foldl_append, evaluate_be_foldl x l₂]
  rfl

theorem evaluate_be_concat (l : List F) (c x : F) :
    evaluate_be (l ++ [c]) x = evaluate_be l x * x + c := by
  rw [evaluate_be_append]
  simp [evaluate_be]

theorem evaluate_be_zipWith_sub (q x : F) :
    ∀ (A B : List F), A.length = B.length →
      evaluate_be (List.zipWith (fun v zc => v - zc * q) A B) x =
        evaluate_be A x - q * evaluate_be B x
  | [], [], _ => by simp [evaluate_be]
  | [], _ :: _, h => by simp at h
  | _ :: _, [], h => by simp at h
  | a :: A, b :: B, h => by
      have h1 : A.length = B.length := by
        simp only [List.length_cons] at h; omega
      show evaluate_be ((a - b * q) :: List.zipWith _ A B) x = _
      rw [evaluate_be_cons, evaluate_be_zipWith_sub q x A B h1,
        evaluate_be_cons, evaluate_be_cons, List.length_zipWith, h1,
        min_self]
      ring

theorem evaluate_be_zipWith_mulsub (a x : F) :
    ∀ (A B : List F), A.length = B.length →
      evaluate_be (List.zipWith (fun u v => u - a * v) A B) x =
        evaluate_be A x - a * evaluate_be B x
  | [], [], _ => by simp [evaluate_be]
  | [], _ :: _, h => by simp at h
  | _ :: _, [], h => by simp at h
  | u :: A, v :: B, h => by
      have h1 : A.length = B.length := by
        simp only [List.length_cons] at h; omega
      show evaluate_be ((u - a * v) :: List.zipWith _ A B) x = _
      rw [evaluate_be_cons, evaluate_be_zipWith_mulsub a x A B h1,
        evaluate_be_cons, evaluate_be_cons, List.length_zipWith, h1,
        min_self]
      ring

theorem mulLinBE_length (a : F) (l : List F) :
    (mulLinBE a l).length = l.length + 1 := by
  simp [mulLinBE]

theorem evaluate_be_mulLinBE (a : F) (l : List F) (x : F) :
    evaluate_be (mulLinBE a l) x = (x - a) * evaluate_be l x := by
  unfold mulLinBE
  rw [evaluate_be_zipWith_mulsub a x (l ++ [0]) (0 :: l) (by simp),
    evaluate_be_concat, evaluate_be_cons]
  ring

theorem vanishingBE_length (pts : List F) :
    (vanishingBE pts).length = pts.length + 1 := by
  unfold vanishingBE
  have h : ∀ (qs : List F) (acc : List F),
      (List.foldl (fun acc p => mulLinBE p acc) acc qs).length =
        acc.length + qs.length := by
    intro qs
    induction qs with
    | nil => intro acc; simp
    | cons q qs ih =>
      intro acc
      show (List.foldl _ (mulLinBE q acc) qs).length = _
      rw [ih (mulLinBE q acc), mulLinBE_length]
      simp only [List.length_cons]
      omega
  rw [h pts [1]]
  simp only [List.length_cons, List.length_nil]
  omega

theorem vanishingBE_eval (pts : List F) (x : F) :
    evaluate_be (vanishingBE pts) x = (pts.map (fun p => x - p)).prod := by
  unfold vanishingBE
  have h : ∀ (qs : List F) (acc : List F),
      evaluate_be (List.foldl (fun acc p => mulLinBE p acc) acc qs) x =
        evaluate_be acc x * (qs.map (fun p => x - p)).prod := by
    intro qs
    induction qs with
    | nil => intro acc; simp
    | cons q qs ih =>
      intro acc
      show evaluate_be (List.foldl _ (mulLinBE q acc) qs) x = _
      rw [ih (mulLinBE q acc), evaluate_be_mulLinBE]
      simp only [List.map_cons, List.prod_cons]
      ring
  rw [h pts [1]]
  have h1 : evaluate_be [(1 : F)] x = 1 := by
    show (0 : F) * x + 1 = 1
    ring
  rw [h1, one_mul]

theorem vanishingBE_root (pts : List F) (p : F) (hp : p ∈ pts) :
    evaluate_be (vanishingBE pts) p = 0 := by
  rw [vanishingBE_eval]
  apply List.prod_eq_zero
  exact List.mem_map.mpr ⟨p, hp, sub_self p⟩

theorem vanishingBE_monic (pts : List F) :
    ∃ tl, vanishingBE pts = 1 :: tl := by
  unfold vanishingBE
  have h : ∀ (qs : List F) (h1 : F) (tl : List F),
      ∃ tl', List.foldl (fun acc p => mulLinBE p acc) (h1 :: tl) qs =
        h1 :: tl' := by
    intro qs
    induction qs with
    | nil => intro h1 tl; exact ⟨tl, rfl⟩
    | cons q qs ih =>
      intro h1 tl
      have hstep : mulLinBE q (h1 :: tl) =
          h1 :: List.zipWith (fun u v => u - q * v) (tl ++ [0]) (h1 :: tl) := by
        show List.zipWith (fun u v => u - q * v) ((h1 :: tl) ++ [0]) (0 :: h1 :: tl) = _
        simp [mul_zero, sub_zero]
      obtain ⟨tl', htl'⟩ := ih h1
        (List.zipWith (fun u v => u - q * v) (tl ++ [0]) (h1 :: tl))
      refine ⟨tl', ?_⟩
      show List.foldl _ (mulLinBE q (h1 :: tl)) qs = _
      rw [hstep, htl']
  exact h pts 1 []

/-- One step of the sliding-window division: popping the front `q` of the
window, pushing the new coefficient `c`, and subtracting `q` times the
vanishing-polynomial tail performs one step of synthetic division. -/
theorem div_step (q c x : F) (stTail zTail : List F)
    (hlen : stTail.length + 1 = zTail.length) :
    evaluate_be (List.zipWith (fun v zc => v - zc * q) (stTail ++ [c]) zTail) x =
      evaluate_be (q :: stTail) x * x + c -
        q * (x ^ zTail.length + evaluate_be zTail x) := by
  rw [evaluate_be_zipWith_sub q x (stTail ++ [c]) zTail (by simp; omega),
    evaluate_be_concat, evaluate_be_cons]
  have hpow : x ^ stTail.length * x = x ^ zTail.length := by
    rw [← pow_succ, hlen]
  linear_combination (-q * hpow)

/-- The full division-loop invariant: the loop succeeds whenever the window is
as large as the vanishing tail and the base stream is long enough, keeps the
window size constant, and the consumed coefficients decompose as quotient
times the (monic) divisor plus the window. -/
theorem divLoop_spec (zTail : List F) (hz : 1 ≤ zTail.length) :
    ∀ (cs state : List F) (bases : List G) (pip : ChunkedPippenger G F),
      state.length = zTail.length →
      cs.length ≤ bases.length →
      ∃ state' pip', divLoop zTail cs state bases pip = some (state', pip') ∧
        state'.length = zTail.length ∧
        ∀ x : F, ∃ qv : F,
          evaluate_be state x * x ^ cs.length + evaluate_be cs x =
            qv * (x ^ zTail.length + evaluate_be zTail x) +
              evaluate_be state' x := by
  intro cs
  induction cs with
  | nil =>
    intro state bases pip hst hbs
    refine ⟨state, pip, rfl, hst, ?_⟩
    intro x
    refine ⟨0, ?_⟩
    simp [evaluate_be]
  | cons c cs ih =>
    intro state bases pip hst hbs
    match state, bases with
    | q :: stTail, base :: bTail =>
      have hst1 : (List.zipWith (fun v zc => v - zc * q) (stTail ++ [c])
          zTail).length = zTail.length := by
        rw [List.length_zipWith]
        simp only [List.length_append, List.length_cons] at hst ⊢
        simp only [List.length_nil] at hst ⊢
        omega
      have hbs1 : cs.length ≤ bTail.length := by
        simp only [List.length_cons] at hbs; omega
      obtain ⟨state', pip', hrun, hlen', heval⟩ :=
        ih (List.zipWith (fun v zc => v - zc * q) (stTail ++ [c]) zTail)
          bTail (pip.add base q) hst1 hbs1
      refine ⟨state', pip', ?_, hlen', ?_⟩
      · show divLoop zTail (c :: cs) (q :: stTail) (base :: bTail) pip = _
        simp only [divLoop]
        rw [hrun]
      · intro x
        obtain ⟨qv', hqv'⟩ := heval x
        refine ⟨qv' + q * x ^ cs.length, ?_⟩
        have hstep := div_step q c x stTail zTail
          (by simp only [List.length_cons] at hst; omega)
        rw [hstep] at hqv'
        rw [evaluate_be_cons c cs, List.length_cons, pow_succ]
        linear_combination hqv'
    | [], _ => simp only [List.length_nil] at hst; omega
    | _ :: _, [] => simp only [List.length_nil, List.length_cons] at hbs; omega

end DivisionLemmas

/-! ### Basic `SpaceProver` lemmas -/

section SumcheckLemmas

variable {F : Type} [Field F] [DecidableEq F]

/-- Inversion of a successful `next_message` that returned a round message:
the assertions held, the round was active, and only the round counter was
changed. -/
theorem next_message_some_inv (st : SpaceProver F) (m : F × F)
    (st' : SpaceProver F) (h : st.next_message = some (some m, st')) :
    st.round < st.tot_rounds ∧ st.challenges.length = st.round ∧
      st' = { st with round := st.round + 1 } ∧
      next_message_core st = some m := by
  unfold SpaceProver.next_message at h
  by_cases h1 : st.round ≤ st.tot_rounds
  · rw [if_pos h1] at h
    by_cases h2 : st.challenges.length = st.round
    · rw [if_pos h2] at h
      by_cases h3 : st.round = st.tot_rounds
      · rw [if_pos h3] at h
        simp at h
      · rw [if_neg h3] at h
        match hc : next_message_core st with
        | some ab =>
          rw [hc] at h
          simp at h
          exact ⟨by omega, h2, h.2.symm, by simp [hc, h.1]⟩
        | none => rw [hc] at h; simp at h
    · rw [if_neg h2] at h
      simp at h
  · rw [if_neg h1] at h
    simp at h

/-- Inversion of a successful `next_message` that returned `none`: the state
was `Done` and was returned unchanged. -/
theorem next_message_none_inv (st : SpaceProver F) (st' : SpaceProver F)
    (h : st.next_message = some (none, st')) :
    st.round = st.tot_rounds ∧ st.challenges.length = st.round ∧ st' = st := by
  unfold SpaceProver.next_message at h
  by_cases h1 : st.round ≤ st.tot_rounds
  · rw [if_pos h1] at h
    by_cases h2 : st.challenges.length = st.round
    · rw [if_pos h2] at h
      by_cases h3 : st.round = st.tot_rounds
      · rw [if_pos h3] at h
        simp at h
        exact ⟨h3, h2, h.symm⟩
      · rw [if_neg h3] at h
        match hc : next_message_core st with
        | some ab => rw [hc] at h; simp at h
        | none => rw [hc] at h; simp at h
    · rw [if_neg h2] at h
      simp at h
  · rw [if_neg h1] at h
    simp at h

/-! ### Folded stream lengths -/

theorem foldPairs_length (r : F) :
    ∀ l : List F, (foldPairs r l).length = (l.length + 1) / 2
  | [] => by simp [foldPairs]
  | [x] => by simp [foldPairs]
  | x :: y :: rest => by
      show (_ :: foldPairs r rest).length = _
      simp only [List.length_cons, foldPairs_length r rest]
      omega

theorem foldStep_length (r : F) (l : List F) :
    (foldStep r l).length = ceil_div l.length 2 := by
  unfold foldStep
  by_cases h : l.length % 2 = 0
  · rw [if_pos h, foldPairs_length]
    unfold ceil_div
    omega
  · rw [if_neg h]
    cases l with
    | nil => simp at h
    | cons x rest =>
      show (x :: foldPairs r rest).length = _
      simp only [List.length_cons] at h ⊢
      rw [foldPairs_length]
      unfold ceil_div
      omega

theorem foldedStream_cons (c : F) (cs : List F) (l : List F) :
    foldedStream (c :: cs) l = foldedStream cs (foldStep c l) := rfl

theorem foldedStream_length (cs : List F) :
    ∀ l : List F, (foldedStream cs l).length = ceil_div l.length (2 ^ cs.length) := by
  induction cs with
  | nil =>
    intro l
    show l.length = ceil_div l.length (2 ^ 0)
    simp [ceil_div]
  | cons c cs ih =>
    intro l
    rw [foldedStream_cons, ih (foldStep c l), foldStep_length,
      ceil_div_ceil_div _ 2 (2 ^ cs.length) (by norm_num) (by positivity)]
    congr 1
    rw [List.length_cons, pow_succ]
    ring

theorem foldedStream_ne_nil (cs l : List F) (h : l ≠ []) :
    foldedStream cs l ≠ [] := by
  have h1 : 1 ≤ l.length := List.length_pos.mpr h
  have h2 := foldedStream_length cs l
  intro hcon
  rw [hcon] at h2
  simp only [List.length_nil] at h2
  have h3 := (ceil_div_le_iff l.length (2 ^ cs.length) 0 (by positivity)).mp
    (by omega)
  rw [Nat.mul_zero] at h3
  omega

theorem foldedStream_length_pow (cs : List F) (l : List F) (n : Nat)
    (hl : l.length = 2 ^ n) (hk : cs.length ≤ n) :
    (foldedStream cs l).length = 2 ^ (n - cs.length) := by
  rw [foldedStream_length, hl, ceil_div_pow_exact n cs.length hk]

/-! ### The round message computation -/

theorem loopPairs_spec (t q : F) :
    ∀ (m : Nat) (lf lg : List F), lf.length = 2 * m → lg.length = 2 * m →
      ∀ (tr a b : F),
        loopPairs t tr q a b m lf lg =
          some (a + dSum tr q lf lg, b + dCross t tr q lf lg) := by
  intro m
  induction m with
  | zero =>
    intro lf lg hf hg tr a b
    have hf0 : lf = [] := List.length_eq_zero.mp (by omega)
    have hg0 : lg = [] := List.length_eq_zero.mp (by omega)
    subst hf0; subst hg0
    simp [loopPairs, dSum, dCross]
  | succ m ih =>
    intro lf lg hf hg tr a b
    match lf, lg with
    | fo :: fe :: fr, go :: ge :: gr =>
      have hfr : fr.length = 2 * m := by
        simp only [List.length_cons] at hf; omega
      have hgr : gr.length = 2 * m := by
        simp only [List.length_cons] at hg; omega
      show loopPairs t (tr * q) q (a + fe * ge * tr)
          (b + (fe * go + fo * ge * t) * tr) m fr gr = _
      rw [ih fr gr hfr hgr]
      show _ = some (a + (fe * ge * tr + dSum (tr * q) q fr gr),
        b + ((fe * go + fo * ge * t) * tr + dCross t (tr * q) q fr gr))
      rw [add_assoc, add_assoc]
    | [], _ => simp only [List.length_nil] at hf; omega
    | [fo], _ => simp only [List.length_cons, List.length_nil] at hf; omega
    | _ :: _ :: _, [] => simp only [List.length_nil] at hg; omega
    | _ :: _ :: _, [go] =>
      simp only [List.length_cons, List.length_nil] at hg; omega

theorem aCoeff_append (t y x v u : F) :
    ∀ (as_ bs : List F), as_.length = bs.length → as_.length % 2 = 0 →
      aCoeff (as_ ++ [y, x]) (bs ++ [v, u]) t =
        aCoeff as_ bs t + y * v * t ^ as_.length
  | [], [], _, _ => by
      simp [aCoeff]
  | [], _ :: _, heq, _ => by simp at heq
  | _ :: _, [], heq, _ => by simp at heq
  | [_], [_], _, heven => by simp at heven
  | [_], _ :: _ :: _, heq, _ => by simp at heq
  | _ :: _ :: _, [_], heq, _ => by simp at heq
  | a0 :: a1 :: as₂, b0 :: b1 :: bs₂, heq, heven => by
      have h1 : as₂.length = bs₂.length := by
        simp only [List.length_cons] at heq; omega
      have h2 : as₂.length % 2 = 0 := by
        simp only [List.length_cons] at heven; omega
      show aCoeff (a0 :: a1 :: (as₂ ++ [y, x])) (b0 :: b1 :: (bs₂ ++ [v, u])) t = _
      rw [aCoeff, aCoeff_append t y x v u as₂ bs₂ h1 h2]
      simp only [List.length_cons, aCoeff]
      ring

theorem bCoeff_append (t y x v u : F) :
    ∀ (as_ bs : List F), as_.length = bs.length → as_.length % 2 = 0 →
      bCoeff t (as_ ++ [y, x]) (bs ++ [v, u]) =
        bCoeff t as_ bs + (y * u + x * v * t) * t ^ as_.length
  | [], [], _, _ => by
      simp [bCoeff]
  | [], _ :: _, heq, _ => by simp at heq
  | _ :: _, [], heq, _ => by simp at heq
  | [_], [_], _, heven => by simp at heven
  | [_], _ :: _ :: _, heq, _ => by simp at heq
  | _ :: _ :: _, [_], heq, _ => by simp at heq
  | a0 :: a1 :: as₂, b0 :: b1 :: bs₂, heq, heven => by
      have h1 : as₂.length = bs₂.length := by
        simp only [List.length_cons] at heq; omega
      have h2 : as₂.length % 2 = 0 := by
        simp only [List.length_cons] at heven; omega
      show bCoeff t (a0 :: a1 :: (as₂ ++ [y, x])) (b0 :: b1 :: (bs₂ ++ [v, u])) = _
      rw [bCoeff, bCoeff_append t y x v u as₂ bs₂ h1 h2]
      simp only [List.length_cons, bCoeff]
      ring

theorem reverse_cons_cons (fo fe : F) (fr : List F) :
    (fo :: fe :: fr).reverse = fr.reverse ++ [fe, fo] := by
  simp

theorem dSum_eq_aCoeff (t : F) (ht : t ≠ 0) :
    ∀ (m : Nat) (lf lg : List F),
      lf.length = 2 * m + 2 → lg.length = 2 * m + 2 →
      dSum (t ^ (2 * m)) ((t ^ 2)⁻¹) lf lg =
        aCoeff lf.reverse lg.reverse t := by
  intro m
  induction m with
  | zero =>
    intro lf lg hf hg
    match lf, lg with
    | [fo, fe], [go, ge] =>
      show dSum (t ^ 0) ((t ^ 2)⁻¹) [fo, fe] [go, ge] =
        aCoeff [fe, fo] [ge, go] t
      simp [dSum, aCoeff]
    | [], _ => simp only [List.length_nil] at hf; omega
    | [_], _ => simp only [List.length_cons, List.length_nil] at hf; omega
    | _ :: _ :: _ :: _, _ =>
      simp only [List.length_cons] at hf; omega
    | [_, _], [] => simp only [List.length_nil] at hg; omega
    | [_, _], [_] => simp only [List.length_cons, List.length_nil] at hg; omega
    | [_, _], _ :: _ :: _ :: _ =>
      simp only [List.length_cons] at hg; omega
  | succ m ih =>
    intro lf lg hf hg
    match lf, lg with
    | fo :: fe :: fr, go :: ge :: gr =>
      have hfr : fr.length = 2 * m + 2 := by
        simp only [List.length_cons] at hf; omega
      have hgr : gr.length = 2 * m + 2 := by
        simp only [List.length_cons] at hg; omega
      have hrun : t ^ (2 * (m + 1)) * (t ^ 2)⁻¹ = t ^ (2 * m) := by
        have h2 : (2 * (m + 1)) = 2 * m + 2 := by ring
        rw [h2, pow_add, mul_assoc,
          mul_inv_cancel₀ (pow_ne_zero 2 ht), mul_one]
      rw [dSum, hrun, ih fr gr hfr hgr, reverse_cons_cons fo fe fr,
        reverse_cons_cons go ge gr,
        aCoeff_append t fe fo ge go fr.reverse gr.reverse
          (by simp [hfr, hgr]) (by simp [hfr])]
      rw [List.length_reverse, hfr]
      have h3 : 2 * m + 2 = 2 * (m + 1) := by ring
      rw [h3]
      ring
    | [], _ => simp only [List.length_nil] at hf; omega
    | [_], _ => simp only [List.length_cons, List.length_nil] at hf; omega
    | _ :: _ :: _, [] => simp only [List.length_nil] at hg; omega
    | _ :: _ :: _, [_] =>
      simp only [List.length_cons, List.length_nil] at hg; omega

theorem dCross_eq_bCoeff (t : F) (ht : t ≠ 0) :
    ∀ (m : Nat) (lf lg : List F),
      lf.length = 2 * m + 2 → lg.length = 2 * m + 2 →
      dCross t (t ^ (2 * m)) ((t ^ 2)⁻¹) lf lg =
        bCoeff t lf.reverse lg.reverse := by
  intro m
  induction m with
  | zero =>
    intro lf lg hf hg
    match lf, lg with
    | [fo, fe], [go, ge] =>
      show dCross t (t ^ 0) ((t ^ 2)⁻¹) [fo, fe] [go, ge] =
        bCoeff t [fe, fo] [ge, go]
      simp [dCross, bCoeff]
    | [], _ => simp only [List.length_nil] at hf; omega
    | [_], _ => simp only [List.length_cons, List.length_nil] at hf; omega
    | _ :: _ :: _ :: _, _ =>
      simp only [List.length_cons] at hf; omega
    | [_, _], [] => simp only [List.length_nil] at hg; omega
    | [_, _], [_] => simp only [List.length_cons, List.length_nil] at hg; omega
    | [_, _], _ :: _ :: _ :: _ =>
      simp only [List.length_cons] at hg; omega
  | succ m ih =>
    intro lf lg hf hg
    match lf, lg with
    | fo :: fe :: fr, go :: ge :: gr =>
      have hfr : fr.length = 2 * m + 2 := by
        simp only [List.length_cons] at hf; omega
      have hgr : gr.length = 2 * m + 2 := by
        simp only [List.length_cons] at hg; omega
      have hrun : t ^ (2 * (m + 1)) * (t ^ 2)⁻¹ = t ^ (2 * m) := by
        have h2 : (2 * (m + 1)) = 2 * m + 2 := by ring
        rw [h2, pow_add, mul_assoc,
          mul_inv_cancel₀ (pow_ne_zero 2 ht), mul_one]
      rw [dCross, hrun, ih fr gr hfr hgr, reverse_cons_cons fo fe fr,
        reverse_cons_cons go ge gr,
        bCoeff_append t fe fo ge go fr.reverse gr.reverse
          (by simp [hfr, hgr]) (by simp [hfr])]
      rw [List.length_reverse, hfr]
      have h3 : 2 * m + 2 = 2 * (m + 1) := by ring
      rw [h3]
      ring
    | [], _ => simp only [List.length_nil] at hf; omega
    | [_], _ => simp only [List.length_cons, List.length_nil] at hf; omega
    | _ :: _ :: _, [] => simp only [List.length_nil] at hg; omega
    | _ :: _ :: _, [_] =>
      simp only [List.length_cons, List.length_nil] at hg; omega

/-- The heart of the space prover: on two folded streams of equal even length
`2m + 2` and nonzero twist, `next_message_core` succeeds and returns exactly
the chunked coefficients `a`, `b` of the materialized (reversed) folded
vectors. -/
theorem next_message_core_eq (st : SpaceProver F) (m : Nat)
    (ht : st.twist ≠ 0)
    (hf : (foldedStream st.twisted_challenges st.f).length = 2 * m + 2)
    (hg : (foldedStream st.challenges st.g).length = 2 * m + 2) :
    next_message_core st = some
      (aCoeff (foldedStream st.twisted_challenges st.f).reverse
        (foldedStream st.challenges st.g).reverse st.twist,
       bCoeff st.twist (foldedStream st.twisted_challenges st.f).reverse
        (foldedStream st.challenges st.g).reverse) := by
  obtain ⟨fo, fe, fr, hFF⟩ :
      ∃ x y xs, foldedStream st.twisted_challenges st.f = x :: y :: xs := by
    match hcase : foldedStream st.twisted_challenges st.f with
    | x :: y :: xs => exact ⟨x, y, xs, rfl⟩
    | [] =>
      rw [hcase] at hf; simp only [List.length_nil] at hf; omega
    | [x] =>
      rw [hcase] at hf
      simp only [List.length_cons, List.length_nil] at hf; omega
  obtain ⟨go, ge, gr, hFG⟩ :
      ∃ x y xs, foldedStream st.challenges st.g = x :: y :: xs := by
    match hcase : foldedStream st.challenges st.g with
    | x :: y :: xs => exact ⟨x, y, xs, rfl⟩
    | [] =>
      rw [hcase] at hg; simp only [List.length_nil] at hg; omega
    | [x] =>
      rw [hcase] at hg
      simp only [List.length_cons, List.length_nil] at hg; omega
  have hfr : fr.length = 2 * m := by
    rw [hFF] at hf; simp only [List.length_cons] at hf; omega
  have hgr : gr.length = 2 * m := by
    rw [hFG] at hg; simp only [List.length_cons] at hg; omega
  have hl1 : (fo :: fe :: fr).length = 2 * m + 2 := by rw [← hFF]; exact hf
  have hl2 : (go :: ge :: gr).length = 2 * m + 2 := by rw [← hFG]; exact hg
  have halign : alignStreams (fo :: fe :: fr) (go :: ge :: gr) =
      (fo :: fe :: fr, 2 * m + 2, go :: ge :: gr, 2 * m + 2) := by
    unfold alignStreams
    rw [hl1, hl2, if_neg (by omega), if_neg (by omega)]
  have hread : readPair (2 * m + 2) (fo :: fe :: fr) = some (fo, fe, fr) := by
    unfold readPair
    rw [if_neg (by omega)]
  have hread' : readPair (2 * m + 2) (go :: ge :: gr) = some (go, ge, gr) := by
    unfold readPair
    rw [if_neg (by omega)]
  have hpairs : (2 * m + 2 - 2 + (2 * m + 2) % 2) / 2 = m := by omega
  unfold next_message_core
  rw [hFF, hFG]
  simp only [halign, hread, hread']
  rw [if_pos ⟨by omega, by omega⟩]
  simp only [hpairs, eq_self_iff_true, if_true]
  rw [if_neg ht]
  rw [loopPairs_spec st.twist ((st.twist ^ 2)⁻¹) m fr gr hfr hgr]
  have hmul : m * 2 = 2 * m := by ring
  rw [hmul]
  rw [← dSum_eq_aCoeff st.twist ht m (fo :: fe :: fr) (go :: ge :: gr) hl1 hl2,
    ← dCross_eq_bCoeff st.twist ht m (fo :: fe :: fr) (go :: ge :: gr) hl1 hl2]
  simp only [dSum, dCross]

/-- `next_message` on a well-formed active state: it succeeds with the round
message of the current folded streams and the only state change is the round
counter increment. -/
theorem next_message_active (st : SpaceProver F) (n : Nat)
    (hf : st.f.length = 2 ^ n) (hg : st.g.length = 2 ^ n)
    (htot : st.tot_rounds ≤ n)
    (hch : st.challenges.length = st.round)
    (htch : st.twisted_challenges.length = st.round)
    (ht : st.twist ≠ 0)
    (hlt : st.round < st.tot_rounds) :
    st.next_message = some (some
      (aCoeff (foldedStream st.twisted_challenges st.f).reverse
        (foldedStream st.challenges st.g).reverse st.twist,
       bCoeff st.twist (foldedStream st.twisted_challenges st.f).reverse
        (foldedStream st.challenges st.g).reverse),
      { st with round := st.round + 1 }) := by
  have hflen : (foldedStream st.twisted_challenges st.f).length =
      2 ^ (n - st.round) := by
    rw [foldedStream_length_pow _ _ n hf (by omega), htch]
  have hglen : (foldedStream st.challenges st.g).length =
      2 ^ (n - st.round) := by
    rw [foldedStream_length_pow _ _ n hg (by omega), hch]
  have hpow : 2 ^ (n - st.round) = 2 * (2 ^ (n - st.round - 1) - 1) + 2 := by
    have h2 : 1 ≤ 2 ^ (n - st.round - 1) := Nat.one_le_two_pow
    have h1 : 2 ^ (n - st.round) = 2 ^ (n - st.round - 1) * 2 := by
      rw [← pow_succ]
      congr 1
      omega
    omega
  unfold SpaceProver.next_message
  rw [if_pos (by omega), if_pos hch, if_neg (by omega),
    next_message_core_eq st (2 ^ (n - st.round - 1) - 1) ht
      (by rw [hflen, hpow]) (by rw [hglen, hpow])]

/-- The twisted scalar product splits into the even part (the message
coefficient `a`) and the odd diagonal part (the quadratic coefficient `c` of
the round polynomial). -/
theorem twistedProduct_split :
    ∀ (as_ bs : List F) (t : F), as_.length = bs.length →
      twistedProduct as_ bs t = aCoeff as_ bs t + cCoeff t as_ bs
  | [], [], _, _ => by simp [twistedProduct, aCoeff, cCoeff]
  | [], _ :: _, _, heq => by simp at heq
  | _ :: _, [], _, heq => by simp at heq
  | [a], [b], t, _ => by simp [twistedProduct, aCoeff, cCoeff]
  | [a], _ :: _ :: _, t, heq => by simp at heq
  | _ :: _ :: _, [b], t, heq => by simp at heq
  | a0 :: a1 :: as₂, b0 :: b1 :: bs₂, t, heq => by
      have h1 : as₂.length = bs₂.length := by
        simp only [List.length_cons] at heq; omega
      simp only [twistedProduct, aCoeff, cCoeff,
        twistedProduct_split as₂ bs₂ t h1]
      ring

/-! ### Space/time simulation -/

theorem timeFoldVec_append (r : F) :
    ∀ (as_ : List F), as_.length % 2 = 0 → ∀ (y x : F),
      timeFoldVec r (as_ ++ [y, x]) = timeFoldVec r as_ ++ [y + r * x]
  | [], _, y, x => by simp [timeFoldVec]
  | [a], heven, y, x => by simp at heven
  | a0 :: a1 :: as₂, heven, y, x => by
      have h2 : as₂.length % 2 = 0 := by
        simp only [List.length_cons] at heven; omega
      show (a0 + r * a1) :: timeFoldVec r (as₂ ++ [y, x]) = _
      rw [timeFoldVec_append r as₂ h2 y x]
      rfl

theorem foldPairs_reverse (r : F) :
    ∀ (l : List F), l.length % 2 = 0 →
      (foldPairs r l).reverse = timeFoldVec r l.reverse
  | [], _ => by simp [foldPairs, timeFoldVec]
  | [x], heven => by simp at heven
  | x :: y :: rest, heven => by
      have h2 : rest.length % 2 = 0 := by
        simp only [List.length_cons] at heven; omega
      show ((y + r * x) :: foldPairs r rest).reverse = _
      rw [List.reverse_cons, foldPairs_reverse r rest h2,
        reverse_cons_cons x y rest,
        timeFoldVec_append r rest.reverse (by simp [h2]) y x]

theorem foldStep_reverse (r : F) (l : List F) (heven : l.length % 2 = 0) :
    (foldStep r l).reverse = timeFoldVec r l.reverse := by
  unfold foldStep
  rw [if_pos heven, foldPairs_reverse r l heven]

theorem foldedStream_append (cs : List F) (r : F) (l : List F) :
    foldedStream (cs ++ [r]) l = foldStep r (foldedStream cs l) := by
  unfold foldedStream
  rw [List.foldl_append]
  rfl

/-- Folding commutes with the space→time conversion: applying `fold` to both
provers preserves the `ofSpace` correspondence (on well-formed states, where
the current folded streams have even length). -/
theorem ofSpace_fold (sp : SpaceProver F) (c : F)
    (hfal : (foldedStream sp.twisted_challenges sp.f).length % 2 = 0)
    (hgal : (foldedStream sp.challenges sp.g).length % 2 = 0) :
    TimeProver.ofSpace (sp.fold c) = (TimeProver.ofSpace sp).fold c := by
  unfold TimeProver.ofSpace TimeProver.fold SpaceProver.fold
  simp only []
  congr 1
  · rw [foldedStream_append, foldStep_reverse _ _ hfal]
  · rw [foldedStream_append, foldStep_reverse _ _ hgal]

/-- The lock-step simulation: driving the space prover and its time-prover
image through the same challenge sequence produces the same messages and
final states in correspondence. -/
theorem run_simulation (n : Nat) :
    ∀ (cs : List F) (sp : SpaceProver F),
      sp.f.length = 2 ^ n → sp.g.length = 2 ^ n →
      sp.tot_rounds = n →
      sp.challenges.length = sp.round →
      sp.twisted_challenges.length = sp.round →
      sp.twist ≠ 0 →
      sp.round + cs.length = n →
      ∃ msgs fin, runSpace sp cs = some (msgs, fin) ∧
        runTime (TimeProver.ofSpace sp) cs =
          some (msgs, TimeProver.ofSpace fin) ∧
        fin.round = n ∧ fin.tot_rounds = n ∧
        fin.challenges.length = n ∧ fin.twisted_challenges.length = n ∧
        fin.f = sp.f ∧ fin.g = sp.g := by
  intro cs
  induction cs with
  | nil =>
    intro sp hf hg htot hch htch ht hall
    simp only [List.length_nil] at hall
    refine ⟨[], sp, rfl, rfl, by omega, htot, by omega, by omega, rfl, rfl⟩
  | cons c cs ih =>
    intro sp hf hg htot hch htch ht hall
    have hlt : sp.round < sp.tot_rounds := by
      simp only [List.length_cons] at hall; omega
    have hspace := next_message_active sp n hf hg (by omega) hch htch ht hlt
    have htime : (TimeProver.ofSpace sp).next_message = some (some
        (aCoeff (foldedStream sp.twisted_challenges sp.f).reverse
          (foldedStream sp.challenges sp.g).reverse sp.twist,
         bCoeff sp.twist (foldedStream sp.twisted_challenges sp.f).reverse
          (foldedStream sp.challenges sp.g).reverse),
        TimeProver.ofSpace { sp with round := sp.round + 1 }) := by
      unfold TimeProver.next_message
      rw [if_pos (show (TimeProver.ofSpace sp).round <
        (TimeProver.ofSpace sp).tot_rounds from hlt)]
      rfl
    set sp₁ : SpaceProver F := { sp with round := sp.round + 1 } with hsp₁
    have heven : ∀ csx : List F, csx.length = sp.round →
        ∀ l : List F, l.length = 2 ^ n →
        (foldedStream csx l).length % 2 = 0 := by
      intro csx hcsx l hl
      rw [foldedStream_length_pow csx l n hl (by omega), hcsx]
      have h1 : n - sp.round = (n - sp.round - 1) + 1 := by omega
      rw [h1, pow_succ]
      omega
    have hcorr : TimeProver.ofSpace (sp₁.fold c) =
        (TimeProver.ofSpace sp₁).fold c := by
      apply ofSpace_fold
      · exact heven sp.twisted_challenges htch sp.f hf
      · exact heven sp.challenges hch sp.g hg
    obtain ⟨msgs, fin, hrs, hrt, hfr, hft, hfc, hftc, hff, hfg⟩ :=
      ih (sp₁.fold c)
        (by show sp.f.length = 2 ^ n; exact hf)
        (by show sp.g.length = 2 ^ n; exact hg)
        (by show sp.tot_rounds = n; exact htot)
        (by show (sp.challenges ++ [c]).length = sp.round + 1; simp [hch])
        (by show (sp.twisted_challenges ++ [c * sp.twist]).length =
          sp.round + 1; simp [htch])
        (by show sp.twist ^ 2 ≠ 0; exact pow_ne_zero 2 ht)
        (by
          have hr : (sp₁.fold c).round = sp.round + 1 := rfl
          simp only [List.length_cons] at hall
          omega)
    refine ⟨(aCoeff (foldedStream sp.twisted_challenges sp.f).reverse
          (foldedStream sp.challenges sp.g).reverse sp.twist,
        bCoeff sp.twist (foldedStream sp.twisted_challenges sp.f).reverse
          (foldedStream sp.challenges sp.g).reverse) :: msgs, fin, ?_, ?_,
      hfr, hft, hfc, hftc, by rw [hff]; rfl, by rw [hfg]; rfl⟩
    · show runSpace sp (c :: cs) = _
      simp only [runSpace, hspace, hrs]
    · show runTime (TimeProver.ofSpace sp) (c :: cs) = _
      simp only [runTime, htime, ← hcorr, hrt]

end SumcheckLemmas

/-! ## Claim theorems -/

instance : Fact (Nat.Prime 101) := ⟨by norm_num⟩

section Claims

variable {F : Type} [Field F] [DecidableEq F]
variable {G : Type} [AddCommGroup G] [Module F G]

/-- C4: for every positive chunk size and every pair of streams with
`scalars.length ≤ bases.length`, `msm_chunks` equals the single unchunked MSM
`Σ_i scalar_i • base_{offset+i}` over the aligned streams — independently of
the chunk size, including chunk sizes that do not divide the stream length;
for an empty scalar stream the result is the group zero, so `commit` of an
empty polynomial is the zero commitment. -/
theorem msm_chunks_eq_unchunked (step : Nat) (hstep : 0 < step)
    (bases_stream : List G) (scalars_stream : List F)
    (h : scalars_stream.length ≤ bases_stream.length)
    (ck : CommitterKeyStream G) :
    msm_chunks step bases_stream scalars_stream =
      some (msmList (bases_stream.drop
        (bases_stream.length - scalars_stream.length)) scalars_stream) ∧
    msm_chunks step bases_stream ([] : List F) = some 0 ∧
    ck.commit ([] : List F) = some 0 := by
  refine ⟨msm_chunks_spec step hstep _ _ h, ?_, ?_⟩
  · rw [msm_chunks_spec step hstep _ _ (Nat.zero_le _)]
    simp [msmList]
  · unfold CommitterKeyStream.commit
    rw [if_pos (by simp)]
    rw [msm_chunks_spec _ (by positivity) _ _ (by simp)]
    simp [msmList]

/-- Witness for C4 at concrete inputs over `ZMod 101` (as a module over
itself). -/
theorem msm_chunks_eq_unchunked_witness :
    (0 < 3 ∧
      ([(1 : ZMod 101), 2, 3, 4]).length ≤
        ([(2 : ZMod 101), 3, 5, 7, 11, 13]).length) ∧
    (msm_chunks 3 [(2 : ZMod 101), 3, 5, 7, 11, 13]
        [(1 : ZMod 101), 2, 3, 4] =
      some (msmList (([(2 : ZMod 101), 3, 5, 7, 11, 13]).drop
        (([(2 : ZMod 101), 3, 5, 7, 11, 13]).length -
          ([(1 : ZMod 101), 2, 3, 4]).length)) [(1 : ZMod 101), 2, 3, 4]) ∧
    msm_chunks 3 [(2 : ZMod 101), 3, 5, 7, 11, 13] ([] : List (ZMod 101)) =
      some 0 ∧
    (CommitterKeyStream.mk [(2 : ZMod 101), 3]).commit
      ([] : List (ZMod 101)) = some 0) :=
  ⟨⟨by decide, by decide⟩,
    msm_chunks_eq_unchunked 3 (by decide) [(2 : ZMod 101), 3, 5, 7, 11, 13]
      [(1 : ZMod 101), 2, 3, 4] (by decide) ⟨[2, 3]⟩⟩

/-- C6 (counterexample): `fold` does not advance the round counter — after a
`fold` on a fresh prover the round is still `0`, not `1`; the round counter is
advanced by `next_message` instead. -/
theorem fold_round_cx :
    ((SpaceProver.new [1, 1] [1, 1] (1 : ZMod 101)).fold 1).round ≠
      (SpaceProver.new [1, 1] [1, 1] (1 : ZMod 101)).round + 1 := by decide

/-- C6 (amended): `fold(r)` appends `r` to the plain challenge list, appends
`r × twist` (the current twist) to the twisted challenge list, and replaces
the twist by its square; it leaves the round counter (and every other field)
unchanged — the round counter is advanced by `next_message`. -/
theorem fold_spec (st : SpaceProver F) (r : F) :
    (st.fold r).challenges = st.challenges ++ [r] ∧
    (st.fold r).twisted_challenges = st.twisted_challenges ++ [r * st.twist] ∧
    (st.fold r).twist = st.twist ^ 2 ∧
    (st.fold r).round = st.round ∧
    (st.fold r).tot_rounds = st.tot_rounds ∧
    (st.fold r).f = st.f ∧ (st.fold r).g = st.g :=
  ⟨rfl, rfl, rfl, rfl, rfl, rfl, rfl⟩

/-- C8: for power-of-two stream lengths `2^a` and `2^b`, `rounds()` of the
constructed `SpaceProver` is exactly `log2(min(len f, len g)) = min a b`
(e.g., length `8` gives `3` rounds), and the value is fixed at construction:
neither `fold` nor `next_message` changes it. -/
theorem rounds_eq_log2_min (f g : List F) (t : F) (a b : Nat)
    (hf : f.length = 2 ^ a) (hg : g.length = 2 ^ b)
    (st : SpaceProver F) (r : F) (x : Option (F × F)) (st' : SpaceProver F)
    (hx : st.next_message = some (x, st')) :
    (SpaceProver.new f g t).rounds = min a b ∧
    (st.fold r).rounds = st.rounds ∧ st'.rounds = st.rounds := by
  refine ⟨?_, rfl, ?_⟩
  · have hmin : min f.length g.length = 2 ^ (min a b) := by
      rw [hf, hg]
      rcases le_total a b with hab | hab
      · rw [min_eq_left hab,
          min_eq_left (Nat.pow_le_pow_right (by norm_num) hab)]
      · rw [min_eq_right hab,
          min_eq_right (Nat.pow_le_pow_right (by norm_num) hab)]
    show required_rounds f g = min a b
    rw [required_rounds, hmin, arkLog2_pow]
  · match x with
    | some m =>
      obtain ⟨_, _, hst, _⟩ := next_message_some_inv st m st' hx
      rw [hst]
      rfl
    | none =>
      obtain ⟨_, _, hst⟩ := next_message_none_inv st st' hx
      rw [hst]

/-- Witness for C8: length 8 = 2³ and 2 = 2¹ give `min 3 1 = 1` round. -/
theorem rounds_eq_log2_min_witness :
    (([(1 : ZMod 101), 2, 3, 4, 5, 6, 7, 8]).length = 2 ^ 3 ∧
      ([(1 : ZMod 101), 1]).length = 2 ^ 1 ∧
      (SpaceProver.new [(1 : ZMod 101)] [1] 1).next_message =
        some (none, SpaceProver.new [(1 : ZMod 101)] [1] 1)) ∧
    ((SpaceProver.new [(1 : ZMod 101), 2, 3, 4, 5, 6, 7, 8] [1, 1] 5).rounds =
      min 3 1 ∧
    ((SpaceProver.new [(1 : ZMod 101)] [1] 1).fold 9).rounds =
      (SpaceProver.new [(1 : ZMod 101)] [1] 1).rounds ∧
    (SpaceProver.new [(1 : ZMod 101)] [1] 1).rounds =
      (SpaceProver.new [(1 : ZMod 101)] [1] 1).rounds) :=
  ⟨⟨by decide, by decide, by decide⟩,
    rounds_eq_log2_min [(1 : ZMod 101), 2, 3, 4, 5, 6, 7, 8] [1, 1] 5 3 1
      (by decide) (by decide) (SpaceProver.new [(1 : ZMod 101)] [1] 1) 9 none
      (SpaceProver.new [(1 : ZMod 101)] [1] 1) (by decide)⟩

/-- C9: `next_message` succeeds with a round message only when the number of
stored challenges equals the current round counter, and calling it a second
time without an intervening `fold` hits the failed assertion
`challenges.len() == round` (an abort, embedded as `none`) rather than
returning a message or recovering. -/
theorem next_message_twice_aborts (st : SpaceProver F) (m : F × F)
    (st' : SpaceProver F) (h : st.next_message = some (some m, st')) :
    st.challenges.length = st.round ∧ st'.next_message = none := by
  obtain ⟨hlt, hch, hst, _⟩ := next_message_some_inv st m st' h
  refine ⟨hch, ?_⟩
  subst hst
  unfold SpaceProver.next_message
  rw [if_pos (by simpa using hlt), if_neg (by simp; omega)]

/-- Witness for C9: a fresh two-element prover; the first `next_message`
succeeds, the second (without a `fold`) aborts. -/
theorem next_message_twice_aborts_witness :
    ((SpaceProver.new [1, 1] [1, 1] (1 : ZMod 101)).next_message =
      some (some (1, 2),
        (⟨[], [], [1, 1], [1, 1], 1, 1, 1⟩ : SpaceProver (ZMod 101)))) ∧
    ((SpaceProver.new [1, 1] [1, 1] (1 : ZMod 101)).challenges.length =
      (SpaceProver.new [1, 1] [1, 1] (1 : ZMod 101)).round ∧
    (⟨[], [], [1, 1], [1, 1], 1, 1, 1⟩ :
      SpaceProver (ZMod 101)).next_message = none) :=
  ⟨by decide,
    next_message_twice_aborts (SpaceProver.new [1, 1] [1, 1] (1 : ZMod 101))
      (1, 2) ⟨[], [], [1, 1], [1, 1], 1, 1, 1⟩ (by decide)⟩

/-- C7: for a `SpaceProver` over non-empty witness streams (of equal
power-of-two length, the witness data model, with the state invariant
`challenges.len() == twisted_challenges.len() == round`), `final_foldings()`
returns `Some` if and only if the round counter equals the total number of
rounds, returns `None` in every earlier round, and at the final round each
folded stream indeed holds exactly one fully folded scalar per side. -/
theorem final_foldings_iff_done (st : SpaceProver F) (n : Nat)
    (hf : st.f ≠ []) (hg : st.g ≠ [])
    (hlf : st.f.length = 2 ^ n) (hlg : st.g.length = 2 ^ n)
    (htot : st.tot_rounds = n)
    (hch : st.challenges.length = st.round)
    (htch : st.twisted_challenges.length = st.round) :
    (st.final_foldings.isSome ↔ st.round = st.tot_rounds) ∧
    (st.round ≠ st.tot_rounds → st.final_foldings = none) ∧
    (st.round = st.tot_rounds →
      (foldedStream st.twisted_challenges st.f).length = 1 ∧
      (foldedStream st.challenges st.g).length = 1) := by
  obtain ⟨lhs, ff', hff⟩ : ∃ x xs, foldedStream st.twisted_challenges st.f = x :: xs := by
    match hcase : foldedStream st.twisted_challenges st.f with
    | [] => exact absurd hcase (foldedStream_ne_nil _ _ hf)
    | x :: xs => exact ⟨x, xs, rfl⟩
  obtain ⟨rhs, fg', hfg⟩ : ∃ x xs, foldedStream st.challenges st.g = x :: xs := by
    match hcase : foldedStream st.challenges st.g with
    | [] => exact absurd hcase (foldedStream_ne_nil _ _ hg)
    | x :: xs => exact ⟨x, xs, rfl⟩
  have hval : st.final_foldings =
      if st.round = st.tot_rounds then some (lhs, rhs) else none := by
    unfold SpaceProver.final_foldings
    rw [hff, hfg]
    rfl
  refine ⟨?_, ?_, ?_⟩
  · rw [hval]
    by_cases h : st.round = st.tot_rounds
    · simp [h]
    · simp [h]
  · intro h
    rw [hval, if_neg h]
  · intro h
    constructor
    · rw [foldedStream_length_pow _ _ n hlf (by omega)]
      have : st.twisted_challenges.length = n := by omega
      rw [this]
      simp
    · rw [foldedStream_length_pow _ _ n hlg (by omega)]
      have : st.challenges.length = n := by omega
      rw [this]
      simp

/-- Witness for C7: a freshly constructed length-1 witness is already `Done`
and yields its foldings; the same prover with the round counter rewound is not
`Done` (vacuously handled by the hypotheses on a fresh prover). -/
theorem final_foldings_iff_done_witness :
    (((SpaceProver.new [7] [9] (5 : ZMod 101)).f ≠ []) ∧
      ((SpaceProver.new [7] [9] (5 : ZMod 101)).g ≠ []) ∧
      (SpaceProver.new [7] [9] (5 : ZMod 101)).f.length = 2 ^ 0 ∧
      (SpaceProver.new [7] [9] (5 : ZMod 101)).g.length = 2 ^ 0) ∧
    (((SpaceProver.new [7] [9] (5 : ZMod 101)).final_foldings.isSome ↔
        (SpaceProver.new [7] [9] (5 : ZMod 101)).round =
          (SpaceProver.new [7] [9] (5 : ZMod 101)).tot_rounds) ∧
      ((SpaceProver.new [7] [9] (5 : ZMod 101)).round ≠
          (SpaceProver.new [7] [9] (5 : ZMod 101)).tot_rounds →
        (SpaceProver.new [7] [9] (5 : ZMod 101)).final_foldings = none) ∧
      ((SpaceProver.new [7] [9] (5 : ZMod 101)).round =
          (SpaceProver.new [7] [9] (5 : ZMod 101)).tot_rounds →
        (foldedStream (SpaceProver.new [7] [9] (5 : ZMod 101)).twisted_challenges
          (SpaceProver.new [7] [9] (5 : ZMod 101)).f).length = 1 ∧
        (foldedStream (SpaceProver.new [7] [9] (5 : ZMod 101)).challenges
          (SpaceProver.new [7] [9] (5 : ZMod 101)).g).length = 1)) :=
  ⟨⟨by decide, by decide, by decide, by decide⟩,
    final_foldings_iff_done (SpaceProver.new [7] [9] (5 : ZMod 101)) 0
      (by decide) (by decide) (by decide) (by decide) (by decide) (by decide)
      (by decide)⟩

/-- C3 (counterexample): for the fresh prover on the witness `f = g = (0, 1)`
(streams `[1, 0]`, since streams are highest-index-first) with twist `1`, the
first message is `(a, b) = (0, 0)`, while `Σ f_i·g_i·twist^i = 1`; so
`a + b ≠ Σ f_i·g_i·twist^i`. -/
theorem round0_sum_claim_cx :
    (SpaceProver.new [1, 0] [1, 0] (1 : ZMod 101)).next_message =
      some (some (0, 0),
        (⟨[], [], [1, 0], [1, 0], 1, 1, 1⟩ : SpaceProver (ZMod 101))) ∧
    twistedProduct (([(1 : ZMod 101), 0]).reverse)
      (([(1 : ZMod 101), 0]).reverse) 1 = 1 ∧
    ((0 : ZMod 101) + 0 ≠ 1) :=
  ⟨by decide, by decide, by decide⟩

/-- C3 (amended): for a fresh `SpaceProver` over equal power-of-two length
streams (length ≥ 2) with nonzero twist, the first message is the pair
`(a, b)` of low coefficients of the round polynomial, and it is `a` plus the
*quadratic* coefficient `c = Σ_j f_{2j+1}·g_{2j+1}·twist^{2j+1}` (not `a + b`)
that equals the full twisted scalar product `Σ_i f_i·g_i·twist^i`; `c` is not
sent — the verifier reconstructs it from the claimed sum. -/
theorem round0_sum_invariant (f g : List F) (t : F) (n : Nat) (hn : 1 ≤ n)
    (hf : f.length = 2 ^ n) (hg : g.length = 2 ^ n) (ht : t ≠ 0) :
    (SpaceProver.new f g t).next_message = some (some
      (aCoeff f.reverse g.reverse t, bCoeff t f.reverse g.reverse),
      { SpaceProver.new f g t with round := 1 }) ∧
    aCoeff f.reverse g.reverse t + cCoeff t f.reverse g.reverse =
      twistedProduct f.reverse g.reverse t := by
  have htot : (SpaceProver.new f g t).tot_rounds = n := by
    show required_rounds f g = n
    rw [required_rounds, hf, hg, min_self, arkLog2_pow]
  constructor
  · have hr : (SpaceProver.new f g t).round = 0 := rfl
    have h := next_message_active (SpaceProver.new f g t) n hf hg
      (by omega) rfl rfl ht (by omega)
    exact h
  · rw [twistedProduct_split f.reverse g.reverse t (by simp [hf, hg])]

/-- Witness for C3 (amended) at the smallest size: streams of length 2. -/
theorem round0_sum_invariant_witness :
    (1 ≤ 1 ∧ ([(3 : ZMod 101), 2]).length = 2 ^ 1 ∧
      ([(5 : ZMod 101), 4]).length = 2 ^ 1 ∧ (7 : ZMod 101) ≠ 0) ∧
    ((SpaceProver.new [3, 2] [5, 4] (7 : ZMod 101)).next_message = some (some
      (aCoeff ([(3 : ZMod 101), 2]).reverse ([(5 : ZMod 101), 4]).reverse 7,
       bCoeff 7 ([(3 : ZMod 101), 2]).reverse ([(5 : ZMod 101), 4]).reverse),
      { SpaceProver.new [3, 2] [5, 4] (7 : ZMod 101) with round := 1 }) ∧
    aCoeff ([(3 : ZMod 101), 2]).reverse ([(5 : ZMod 101), 4]).reverse 7 +
        cCoeff 7 ([(3 : ZMod 101), 2]).reverse ([(5 : ZMod 101), 4]).reverse =
      twistedProduct ([(3 : ZMod 101), 2]).reverse
        ([(5 : ZMod 101), 4]).reverse 7) :=
  ⟨⟨by decide, by decide, by decide, by decide⟩,
    round0_sum_invariant [3, 2] [5, 4] (7 : ZMod 101) 1 (by decide)
      (by decide) (by decide) (by decide)⟩

/-- C10 (counterexample): the frame claim fails as universally stated — an
active-round prover with zero twist panics in `next_message` (inverting the
zero twist) instead of returning a message, and a `Done`-round prover whose
stored challenge count differs from the round counter (reachable by an extra
`fold`) panics on the `challenges.len() == round` assertion instead of
returning `None` with the state unchanged. -/
theorem next_message_frame_cx :
    ((SpaceProver.new [1, 1] [1, 1] (0 : ZMod 101)).round <
        (SpaceProver.new [1, 1] [1, 1] (0 : ZMod 101)).tot_rounds ∧
      (SpaceProver.new [1, 1] [1, 1] (0 : ZMod 101)).challenges.length =
        (SpaceProver.new [1, 1] [1, 1] (0 : ZMod 101)).round ∧
      (SpaceProver.new [1, 1] [1, 1] (0 : ZMod 101)).next_message = none) ∧
    (((SpaceProver.new [1] [1] (1 : ZMod 101)).fold 1).round =
        ((SpaceProver.new [1] [1] (1 : ZMod 101)).fold 1).tot_rounds ∧
      ((SpaceProver.new [1] [1] (1 : ZMod 101)).fold 1).next_message =
        none) :=
  ⟨⟨by decide, by decide, by decide⟩, ⟨by decide, by decide⟩⟩

/-- C10 (amended): for every `SpaceProver` with equal power-of-two length
witness streams, nonzero twist, and the data-model invariant
`challenges.len() == twisted_challenges.len() == round`: in an active round
(`round < tot_rounds`) `next_message()` returns a message and increments the
round counter by exactly one, leaving the challenge lists, the twist, and the
witness streams unchanged; when `round == tot_rounds` it returns `None` and
leaves the entire state unchanged. -/
theorem next_message_frame (st : SpaceProver F) (n : Nat)
    (hf : st.f.length = 2 ^ n) (hg : st.g.length = 2 ^ n)
    (htot : st.tot_rounds ≤ n)
    (hch : st.challenges.length = st.round)
    (htch : st.twisted_challenges.length = st.round)
    (ht : st.twist ≠ 0) :
    (st.round < st.tot_rounds → ∃ ab, st.next_message =
      some (some ab, { st with round := st.round + 1 })) ∧
    (st.round = st.tot_rounds → st.next_message = some (none, st)) := by
  constructor
  · intro hlt
    exact ⟨_, next_message_active st n hf hg htot hch htch ht hlt⟩
  · intro heq
    unfold SpaceProver.next_message
    rw [if_pos (by omega), if_pos hch, if_pos heq]

/-- Witness for C10 (amended): a fresh length-2 prover is active and steps to
round 1; a fresh length-1 prover is `Done` and is returned unchanged. -/
theorem next_message_frame_witness :
    (([(1 : ZMod 101), 1]).length = 2 ^ 1 ∧
      (SpaceProver.new [1, 1] [1, 1] (5 : ZMod 101)).tot_rounds ≤ 1 ∧
      (5 : ZMod 101) ≠ 0) ∧
    (((SpaceProver.new [1, 1] [1, 1] (5 : ZMod 101)).round <
        (SpaceProver.new [1, 1] [1, 1] (5 : ZMod 101)).tot_rounds →
      ∃ ab, (SpaceProver.new [1, 1] [1, 1] (5 : ZMod 101)).next_message =
        some (some ab, { SpaceProver.new [1, 1] [1, 1] (5 : ZMod 101) with
          round := (SpaceProver.new [1, 1] [1, 1] (5 : ZMod 101)).round + 1 })) ∧
    ((SpaceProver.new [1, 1] [1, 1] (5 : ZMod 101)).round =
        (SpaceProver.new [1, 1] [1, 1] (5 : ZMod 101)).tot_rounds →
      (SpaceProver.new [1, 1] [1, 1] (5 : ZMod 101)).next_message =
        some (none, SpaceProver.new [1, 1] [1, 1] (5 : ZMod 101)))) :=
  ⟨⟨by decide, by decide, by decide⟩,
    next_message_frame (SpaceProver.new [1, 1] [1, 1] (5 : ZMod 101)) 1
      (by decide) (by decide) (by decide) (by decide) (by decide)
      (by decide)⟩

/-- C1 (counterexample): with a zero twist — a legal witness scalar, and
power-of-two equal-length streams with a challenge sequence of length
`rounds()` — the `SpaceProver` aborts in its first `next_message` (inverting
`twist²`), so it yields no `RoundMsg` sequence at all; the equivalence as
universally stated fails. -/
theorem sumcheck_space_time_equivalence_cx :
    ([(1 : ZMod 101)]).length =
      (SpaceProver.new [1, 1] [1, 1] (0 : ZMod 101)).rounds ∧
    runSpace (SpaceProver.new [1, 1] [1, 1] (0 : ZMod 101)) [1] = none :=
  ⟨by decide, by decide⟩

/-- C1 (amended): for every witness `(f, g, twist)` whose streams have equal
power-of-two length and whose twist is nonzero, and every challenge sequence
of length `rounds()`, driving a `SpaceProver` and a `TimeProver` built from
the same witness through alternating `next_message()`/`fold(challenge)` calls
yields identical `RoundMsg` sequences and identical `final_foldings()`
results (and those final foldings are defined). -/
theorem sumcheck_space_time_equivalence (f g : List F) (t : F) (n : Nat)
    (hf : f.length = 2 ^ n) (hg : g.length = 2 ^ n) (ht : t ≠ 0)
    (cs : List F) (hcs : cs.length = (SpaceProver.new f g t).rounds) :
    ∃ msgs spFin tpFin,
      runSpace (SpaceProver.new f g t) cs = some (msgs, spFin) ∧
      runTime (TimeProver.ofSpace (SpaceProver.new f g t)) cs =
        some (msgs, tpFin) ∧
      spFin.final_foldings = tpFin.final_foldings ∧
      spFin.final_foldings.isSome := by
  have htot : (SpaceProver.new f g t).tot_rounds = n := by
    show required_rounds f g = n
    rw [required_rounds, hf, hg, min_self, arkLog2_pow]
  have hcs' : cs.length = n := by rw [hcs]; exact htot
  obtain ⟨msgs, fin, hrs, hrt, hfr, hft, hfc, hftc, hff, hfg⟩ :=
    run_simulation n cs (SpaceProver.new f g t) hf hg htot rfl rfl ht
      (by show 0 + cs.length = n; omega)
  have hFlen : (foldedStream fin.twisted_challenges fin.f).length = 1 := by
    rw [foldedStream_length_pow _ _ n (by rw [hff]; exact hf) (by omega), hftc]
    simp
  have hGlen : (foldedStream fin.challenges fin.g).length = 1 := by
    rw [foldedStream_length_pow _ _ n (by rw [hfg]; exact hg) (by omega), hfc]
    simp
  obtain ⟨x, hx⟩ := List.length_eq_one.mp hFlen
  obtain ⟨y, hy⟩ := List.length_eq_one.mp hGlen
  have hsp : fin.final_foldings = some (x, y) := by
    unfold SpaceProver.final_foldings
    rw [hx, hy]
    simp [hfr, hft]
  have htp : (TimeProver.ofSpace fin).final_foldings = some (x, y) := by
    unfold TimeProver.final_foldings TimeProver.ofSpace
    simp only [hx, hy]
    simp [hfr, hft]
  exact ⟨msgs, fin, TimeProver.ofSpace fin, hrs, hrt, by rw [hsp, htp],
    by rw [hsp]; rfl⟩

/-- Witness for C1: a one-round run over length-2 streams. -/
theorem sumcheck_space_time_equivalence_witness :
    (([(3 : ZMod 101), 2]).length = 2 ^ 1 ∧
      ([(5 : ZMod 101), 4]).length = 2 ^ 1 ∧ (7 : ZMod 101) ≠ 0 ∧
      ([(9 : ZMod 101)]).length =
        (SpaceProver.new [3, 2] [5, 4] (7 : ZMod 101)).rounds) ∧
    (∃ msgs spFin tpFin,
      runSpace (SpaceProver.new [3, 2] [5, 4] (7 : ZMod 101)) [9] =
        some (msgs, spFin) ∧
      runTime (TimeProver.ofSpace
        (SpaceProver.new [3, 2] [5, 4] (7 : ZMod 101))) [9] =
        some (msgs, tpFin) ∧
      spFin.final_foldings = tpFin.final_foldings ∧
      spFin.final_foldings.isSome) :=
  ⟨⟨by decide, by decide, by decide, by decide⟩,
    sumcheck_space_time_equivalence [3, 2] [5, 4] 7 1 (by decide) (by decide)
      (by decide) [9] (by decide)⟩

/-- C2: for every polynomial coefficient stream with more coefficients than
there are points and every non-empty point set (distinct or not), the
remainder window returned by `open_multi_points`, read as a (big-endian)
polynomial, evaluates at each queried point to the same value as the original
polynomial — polynomial division by the vanishing polynomial leaves the
evaluations at its roots unchanged. -/
theorem open_multi_points_remainder (ck : CommitterKeyStream G)
    (p : List F) (points : List F) (max_msm_buffer : Nat)
    (hne : points ≠ []) (hlen : points.length < p.length)
    (hsrs : p.length ≤ ck.powers_of_g.length) :
    ∃ remainder prf,
      ck.open_multi_points p points max_msm_buffer = some (remainder, prf) ∧
      ∀ pt ∈ points, evaluate_be remainder pt = evaluate_be p pt := by
  obtain ⟨ztl, hztl⟩ := vanishingBE_monic points
  have hztlen : ztl.length = points.length := by
    have hv := vanishingBE_length points
    rw [hztl] at hv
    simp only [List.length_cons] at hv
    omega
  have htail : (vanishingBE points).tail = ztl := by
    rw [hztl]
    rfl
  have hz1 : 1 ≤ ztl.length := by
    rw [hztlen]
    exact List.length_pos.mpr hne
  have hstate : (p.take points.length).length = ztl.length := by
    rw [List.length_take, hztlen]
    omega
  have hbases : (p.drop points.length).length ≤
      (ck.powers_of_g.drop
        (ck.powers_of_g.length - p.length + points.length)).length := by
    simp only [List.length_drop]
    omega
  obtain ⟨state', pip', hrun, hlen', heval⟩ :=
    divLoop_spec ztl hz1 (p.drop points.length) (p.take points.length)
      (ck.powers_of_g.drop (ck.powers_of_g.length - p.length + points.length))
      (ChunkedPippenger.new max_msm_buffer) hstate hbases
  refine ⟨state', pip'.finalize, ?_, ?_⟩
  · unfold CommitterKeyStream.open_multi_points
    rw [if_pos hsrs, if_pos (by omega)]
    simp only [htail, hrun]
  · intro pt hpt
    obtain ⟨qv, hqv⟩ := heval pt
    have hzero : pt ^ ztl.length + evaluate_be ztl pt = 0 := by
      have h1 := vanishingBE_root points pt hpt
      rw [hztl, evaluate_be_cons, one_mul] at h1
      exact h1
    rw [hzero, mul_zero, zero_add] at hqv
    rw [← hqv, ← evaluate_be_append (p.take points.length)
      (p.drop points.length) pt, List.take_append_drop]

/-- Witness for C2: dividing `2x² + 3x + 5` by `(x - 7)` over `ZMod 101`. -/
theorem open_multi_points_remainder_witness :
    (([(7 : ZMod 101)]) ≠ [] ∧ ([(7 : ZMod 101)]).length <
        ([(2 : ZMod 101), 3, 5]).length ∧
      ([(2 : ZMod 101), 3, 5]).length ≤
        ((CommitterKeyStream.mk
          [(1 : ZMod 101), 1, 1, 1, 1]).powers_of_g).length) ∧
    (∃ remainder prf,
      (CommitterKeyStream.mk
          [(1 : ZMod 101), 1, 1, 1, 1]).open_multi_points
        [(2 : ZMod 101), 3, 5] [7] 4 = some (remainder, prf) ∧
      ∀ pt ∈ [(7 : ZMod 101)],
        evaluate_be remainder pt = evaluate_be [(2 : ZMod 101), 3, 5] pt) :=
  ⟨⟨by decide, by decide, by decide⟩,
    open_multi_points_remainder (CommitterKeyStream.mk
        [(1 : ZMod 101), 1, 1, 1, 1])
      [(2 : ZMod 101), 3, 5] [7] 4 (by decide) (by decide) (by decide)⟩

/-- C5: for every folding tree (base stream plus challenge list) of depth
`n ≥ 1` over an SRS at least as long as the base, and every level
`i ∈ 1..n`, the `i`-th commitment returned by `commit_folding` equals the
result of calling `commit` on the fully materialized level-`i` folded
polynomial, for any memory budget. -/
theorem commit_folding_eq_commit (ck : CommitterKeyStream G) (base : List F)
    (challenges : List F) (max_msm_buffer : Nat)
    (hne : 0 < challenges.length)
    (hsrs : base.length ≤ ck.powers_of_g.length)
    (i : Nat) (h1 : 1 ≤ i) (h2 : i ≤ challenges.length) :
    ∃ out ci,
      ck.commit_folding base challenges max_msm_buffer = some out ∧
      out.length = challenges.length ∧
      out[i - 1]? = some ci ∧
      ck.commit (foldedStream (challenges.take i) base) = some ci := by
  have hL : ∀ j, 1 ≤ j →
      ceil_div base.length (2 ^ j) ≤ ck.powers_of_g.length :=
    fun j hj => le_trans (ceil_div_le_self base.length j hj) hsrs
  set pip0 : ChunkedPippenger G F :=
    ChunkedPippenger.new (max_msm_buffer / challenges.length) with hpip0
  set initL : List (List G × ChunkedPippenger G F) :=
    (List.range challenges.length).map
      (fun j => (ck.powers_of_g.drop (ck.powers_of_g.length -
        ceil_div base.length (2 ^ (j + 1))), pip0)) with hinitL
  have hinit : (List.range challenges.length).mapM
      (fun j => (levelBases ck.powers_of_g base.length (j + 1)).map
        (fun bs => (bs, pip0))) = some initL := by
    apply mapM_option_of_forall
    intro j hj
    unfold levelBases
    rw [if_pos (hL (j + 1) (by omega))]
    rfl
  have hcoeff_len : ∀ j, j + 1 ≤ challenges.length →
      (foldedStream (challenges.take (j + 1)) base).length =
        ceil_div base.length (2 ^ (j + 1)) := by
    intro j hj
    rw [foldedStream_length, List.length_take, min_eq_left hj]
  have hgetInit : ∀ j, j < challenges.length →
      initL[j]? = some (ck.powers_of_g.drop (ck.powers_of_g.length -
        ceil_div base.length (2 ^ (j + 1))), pip0) := by
    intro j hj
    rw [hinitL, List.getElem?_map, List.getElem?_range hj]
    rfl
  have hdroplen : ∀ j, 1 ≤ j → j ≤ challenges.length →
      (ck.powers_of_g.drop (ck.powers_of_g.length -
        ceil_div base.length (2 ^ j))).length =
        ceil_div base.length (2 ^ j) := by
    intro j hj hj2
    rw [List.length_drop]
    have := hL j hj
    omega
  obtain ⟨fin, hrun, hflen, hother, hlevels⟩ :=
    routeTraversal ((List.range challenges.length).map (fun j => j + 1))
      initL (fun k => foldedStream (challenges.take k) base)
      (by
        intro k hk
        obtain ⟨j, hjm, rfl⟩ := List.mem_map.mp hk
        omega)
      ((List.nodup_range challenges.length).map
        (add_left_injective 1))
      (by
        intro k hk
        obtain ⟨j, hjm, rfl⟩ := List.mem_map.mp hk
        have hjlt : j < challenges.length := List.mem_range.mp hjm
        refine ⟨_, pip0, by
          show initL[j + 1 - 1]? = _
          have hj1 : j + 1 - 1 = j := by omega
          rw [hj1]
          exact hgetInit j hjlt, ?_⟩
        rw [hcoeff_len j (by omega), hdroplen (j + 1) (by omega) (by omega)])
  have hmemi : i ∈ (List.range challenges.length).map (fun j => j + 1) :=
    List.mem_map.mpr ⟨i - 1, List.mem_range.mpr (by omega), by omega⟩
  have hi1 : i - 1 + 1 = i := by omega
  have hsti : initL[i - 1]? = some (ck.powers_of_g.drop
      (ck.powers_of_g.length - ceil_div base.length (2 ^ i)), pip0) := by
    have := hgetInit (i - 1) (by omega)
    rw [hi1] at this
    exact this
  obtain ⟨pip', hfini, hfinal⟩ := hlevels i hmemi _ pip0 hsti
  have htraveq : treeTraversal base challenges =
      ((List.range challenges.length).map (fun j => j + 1)).flatMap
        (fun k => (foldedStream (challenges.take k) base).map
          (fun c => (k, c))) := by
    unfold treeTraversal
    rw [List.flatMap_map]
  refine ⟨fin.map (fun p => p.2.finalize), pip'.finalize, ?_, ?_, ?_, ?_⟩
  · unfold CommitterKeyStream.commit_folding
    rw [if_pos hne]
    simp only [hinit, htraveq, hrun]
  · rw [List.length_map, hflen, hinitL, List.length_map, List.length_range]
  · rw [List.getElem?_map, hfini]
    rfl
  · unfold CommitterKeyStream.commit
    have hclen : (foldedStream (challenges.take i) base).length =
        ceil_div base.length (2 ^ i) := by
      have := hcoeff_len (i - 1) (by omega)
      rw [hi1] at this
      exact this
    rw [if_pos (by rw [hclen]; exact hL i h1),
      msm_chunks_spec (2 ^ 20) (by positivity) _ _
        (by rw [hclen]; exact hL i h1),
      hclen, hfinal, finalize_new, zero_add]

/-- Witness for C5: a depth-2 tree over a base of length 4. -/
theorem commit_folding_eq_commit_witness :
    (0 < ([(3 : ZMod 101), 5]).length ∧
      ([(1 : ZMod 101), 2, 3, 4]).length ≤
        ((CommitterKeyStream.mk
          [(2 : ZMod 101), 3, 5, 7]).powers_of_g).length ∧
      1 ≤ 2 ∧ 2 ≤ ([(3 : ZMod 101), 5]).length) ∧
    (∃ out ci,
      (CommitterKeyStream.mk [(2 : ZMod 101), 3, 5, 7]).commit_folding
        [(1 : ZMod 101), 2, 3, 4] [(3 : ZMod 101), 5] 4 = some out ∧
      out.length = ([(3 : ZMod 101), 5]).length ∧
      out[2 - 1]? = some ci ∧
      (CommitterKeyStream.mk [(2 : ZMod 101), 3, 5, 7]).commit
        (foldedStream (([(3 : ZMod 101), 5]).take 2)
          [(1 : ZMod 101), 2, 3, 4]) = some ci) :=
  ⟨⟨by decide, by decide, by decide, by decide⟩,
    commit_folding_eq_commit (CommitterKeyStream.mk [(2 : ZMod 101), 3, 5, 7])
      [(1 : ZMod 101), 2, 3, 4] [(3 : ZMod 101), 5] 4 (by decide) (by decide)
      2 (by decide) (by decide)⟩

end Claims

end Gemini
